import Mathlib

/-!
# Verification of the `digest` Digester (`src/include/digest/digester.hpp`)

This file shallowly embeds the `digest::Digester<P>` class template of
`digester.hpp` in Lean 4 and settles the claims about it.

Modelling conventions:

* A byte is a `Nat` (value `0..255`); a DNA sequence, which the C++ code
  receives as a `(const char *seq, size_t len)` pair, is modelled as a
  `List Nat` (so `len` is `seq.length`).
* Reading `seq[i]` is modelled by `List.getD seq i 0`.  For in-bounds
  indices this is exactly the byte of the sequence.  The C++ code contains
  one spot (`append_seq`, `size_t ind = this->len - 1`) where, for
  `len = 0`, the index wraps to `2^64 - 1` and the subsequent
  `this->seq[ind]` is an out-of-bounds read (undefined behaviour).  The
  embedding keeps the size_t wrap of `ind` and renders the out-of-bounds
  read as the byte `0` (a non-ACTG byte).  The claims affected by this
  corner are settled as code bugs, and their divergence does not depend on
  the value such a read returns.
* `uint64_t` hash values are `Nat`s.  The ntHash primitives
  (`base_forward_hash`, `base_reverse_hash`, `next_forward_hash`,
  `next_reverse_hash`, `nthash::canonical`) are external to the repository
  and are treated as the spec directs: an opaque-to-us family of pure
  functions, modelled as a parameter `H : NtHash`.  No claim settled here
  depends on their values, so no axioms about them are assumed.
* C++ exceptions are modelled by returning the exception alongside the
  (possibly mutated) object state, mirroring that a caller that catches the
  exception still holds the object.
-/

namespace Digest

/-- The two exception kinds thrown by `digester.hpp`
(`BadConstructionException`, `NotRolledTillEndException`). -/
inductive CppExc where
  | badConstruction
  | notRolledTillEnd
deriving DecidableEq

/-- The `BadCharPolicy` template parameter: `WRITEOVER` replaces any
non-ACTG character with `'A'`; `SKIPOVER` skips k-mers containing one. -/
inductive Policy where
  | writeover
  | skipover
deriving DecidableEq

/-- The external ntHash primitive family (spec §4.A, out of scope of the
repository): base and rolling forward/reverse hashes and the canonical
combination.  `bf`/`br` take the k-mer window (its length is the `k`
argument of the C++ call); `nf`/`nr` take previous hash, `k`, the outgoing
char and the incoming char; `canon` combines forward and reverse. -/
structure NtHash where
  bf : List Nat → Nat
  br : List Nat → Nat
  nf : Nat → Nat → Nat → Nat → Nat
  nr : Nat → Nat → Nat → Nat → Nat
  canon : Nat → Nat → Nat

/-- A trivial ntHash instance used to evaluate the model on concrete
inputs whose divergences are hash-independent. -/
def H0 : NtHash := ⟨fun _ => 0, fun _ => 0, fun _ _ _ _ => 0, fun _ _ _ _ => 0, fun _ _ => 0⟩

/-- The 256-entry classification table `Digester::actg` (lines 299-316 of
`digester.hpp`), transcribed entry for entry: `true` exactly at
0x41 'A', 0x43 'C', 0x47 'G', 0x54 'T', 0x61 'a', 0x63 'c', 0x67 'g',
0x74 't'. -/
def actgTable : List Bool :=
  [false, false, false, false, false, false, false, false,
   false, false, false, false, false, false, false, false,
   false, false, false, false, false, false, false, false,
   false, false, false, false, false, false, false, false,
   false, false, false, false, false, false, false, false,
   false, false, false, false, false, false, false, false,
   false, false, false, false, false, false, false, false,
   false, false, false, false, false, false, false, false,
   false, true,  false, true,  false, false, false, true,
   false, false, false, false, false, false, false, false,
   false, false, false, false, true,  false, false, false,
   false, false, false, false, false, false, false, false,
   false, true,  false, true,  false, false, false, true,
   false, false, false, false, false, false, false, false,
   false, false, false, false, true,  false, false, false,
   false, false, false, false, false, false, false, false,
   false, false, false, false, false, false, false, false,
   false, false, false, false, false, false, false, false,
   false, false, false, false, false, false, false, false,
   false, false, false, false, false, false, false, false,
   false, false, false, false, false, false, false, false,
   false, false, false, false, false, false, false, false,
   false, false, false, false, false, false, false, false,
   false, false, false, false, false, false, false, false,
   false, false, false, false, false, false, false, false,
   false, false, false, false, false, false, false, false,
   false, false, false, false, false, false, false, false,
   false, false, false, false, false, false, false, false,
   false, false, false, false, false, false, false, false,
   false, false, false, false, false, false, false, false,
   false, false, false, false, false, false, false, false,
   false, false, false, false, false, false, false, false]

/-- The classification `is_ACTG` applied to a byte value: true exactly for
the eight bytes `'A','C','G','T','a','c','g','t'`.  This is the content of
the `actg` table read at the byte's value (see `is_ACTG_eq_table`); the
main model uses this direct form. -/
def is_ACTG (b : Nat) : Bool :=
  b == 65 || b == 67 || b == 71 || b == 84 || b == 97 || b == 99 || b == 103 || b == 116

/-- The C++ member `bool is_ACTG(char in) { return actg[in]; }` as written:
its argument is a plain `char`, which on the target platforms is signed, so
a byte `≥ 0x80` arrives as a negative value; `std::array::operator[]`
converts it to `size_t`, and any index outside `0..255` is an out-of-bounds
access, rendered here as `none`. -/
def is_ACTG_cpp (c : Int) : Option Bool :=
  if 0 ≤ c ∧ c < 256 then some (actgTable.getD c.toNat false) else none

/-- Conversion of a byte to the value a signed 8-bit `char` holds for it. -/
def charOfByte (b : Nat) : Int :=
  if b < 128 then (b : Int) else (b : Int) - 256

/-- The substitution the WRITEOVER policy applies to an incoming byte:
non-ACTG bytes become `'A'` (0x41). -/
def subChar (b : Nat) : Nat := if is_ACTG b then b else 65

/-- The contiguous window `seq[a..b)` of a sequence. -/
def windowOf (seq : List Nat) (a b : Nat) : List Nat := (seq.drop a).take (b - a)

/-- All bytes of a list are ACTG. -/
def allACTG (l : List Nat) : Bool := l.all is_ACTG

/-- The size_t constant `2^64`. -/
def U64 : Nat := 18446744073709551616

/-- The cursor state of `digest::Digester` (fields at lines 607-645 of
`digester.hpp`).  `seq` models the `(const char *seq, size_t len)` pair,
so the C++ field `len` is `seq.length` here; `endi` is the C++ field
`end` (a Lean keyword).  `minimized_h` is kept at the underlying C++
`int` of the scoped enum `MinimizedHashType` (0 CANON, 1 FORWARD,
2 REVERSE). -/
structure Cursor where
  seq : List Nat
  offset : Nat
  start : Nat
  endi : Nat
  chash : Nat
  fhash : Nat
  rhash : Nat
  k : Nat
  c_outs : List Nat
  minimized_h : Int
  is_valid_hash : Bool
deriving DecidableEq

/-- `get_pos()` (line 177): `offset + start - c_outs.size()` in `size_t`
arithmetic, i.e. modulo `2^64` with wrap-around on underflow. -/
def getPos (d : Cursor) : Nat :=
  (d.offset + d.start + (U64 - d.c_outs.length % U64)) % U64

/-- The first non-ACTG position of `seq[i..i+n)`, returned as an offset
`j < n` from `i` (reading out-of-range entries as byte 0).  This is the
inner `for` loop of `init_hash_skip_over` (lines 493-500). -/
def firstBadRel (seq : List Nat) (i : Nat) : Nat → Option Nat
  | 0 => none
  | n+1 =>
    if is_ACTG (seq.getD i 0) then (firstBadRel seq (i+1) n).map Nat.succ
    else some 0

/-- The scanning loop of `init_hash_skip_over` (lines 491-510), with a
structural step counter so that it evaluates by kernel reduction: the
counter is an upper bound on the number of loop iterations and is never
exhausted when `findKmer` supplies it (see `findKmer_eq`).  Starting from
candidate position `s` (the cursor's `start`, with `end = s + k`), the
loop repeatedly jumps past the first non-ACTG byte of the candidate
window until a window free of them fits before the end of the sequence.
It returns `(true, s')` with the found start, or `(false, s')` with the
start at which `end - 1 < len` first failed.  The C++ loop condition
`end - 1 < len` is `s + k ≤ len` because `end = s + k ≥ 4`. -/
def findKmerAux (seq : List Nat) (k : Nat) : Nat → Nat → Bool × Nat
  | 0, s => (false, s)
  | fuel+1, s =>
    if s + k ≤ seq.length then
      match firstBadRel seq s k with
      | some j => findKmerAux seq k fuel (s + j + 1)
      | none => (true, s)
    else (false, s)

/-- The scanning loop of `init_hash_skip_over` with its iteration bound
supplied: each iteration moves `start` right by at least one, so
`len + 1 - s` iterations always reach the loop exit. -/
def findKmer (seq : List Nat) (k : Nat) (s : Nat) : Bool × Nat :=
  findKmerAux seq k (seq.length + 1 - s) s

/-- `init_hash_skip_over` (lines 489-513): clear the carry, scan for the
first valid window, and on success compute the base hashes over it.  At
every call site `end = start + k`, and the loop maintains that, so the
result's `endi` is `start' + k`. -/
def initHashSkipOver (H : NtHash) (d : Cursor) : Cursor :=
  let d0 := { d with c_outs := ([] : List Nat) }
  let r := findKmer d0.seq d0.k d0.start
  if r.1 then
    let w := windowOf d0.seq r.2 (r.2 + d0.k)
    let f := H.bf w
    let rv := H.br w
    { d0 with start := r.2, endi := r.2 + d0.k, fhash := f, rhash := rv,
              chash := H.canon f rv, is_valid_hash := true }
  else
    { d0 with start := r.2, endi := r.2 + d0.k, is_valid_hash := false }

/-- `init_hash_write_over` (lines 517-538): clear the carry; if the window
`[start, start + k)` fits (`end - 1 < len`), hash it with every non-ACTG
byte replaced by `'A'`; otherwise mark invalid.  `start`/`end` are not
moved (`end = start + k` at every call site). -/
def initHashWriteOver (H : NtHash) (d : Cursor) : Cursor :=
  let d0 := { d with c_outs := ([] : List Nat) }
  if d0.start + d0.k ≤ d0.seq.length then
    let w := (windowOf d0.seq d0.start (d0.start + d0.k)).map subChar
    let f := H.bf w
    let rv := H.br w
    { d0 with fhash := f, rhash := rv, chash := H.canon f rv, is_valid_hash := true }
  else
    { d0 with is_valid_hash := false }

/-- `init_hash` (lines 339-345): dispatch on the policy. -/
def initHash (H : NtHash) (P : Policy) (d : Cursor) : Cursor :=
  match P with
  | .skipover => initHashSkipOver H d
  | .writeover => initHashWriteOver H d

/-- The `Digester` constructor (lines 89-97): member initialisation, the
`BadConstruction` guard `k < 4 or start >= len or (int)minimized_h > 2`,
then `init_hash()`. -/
def construct (H : NtHash) (P : Policy) (seq : List Nat) (k : Nat) (start : Nat)
    (mh : Int) : Except CppExc Cursor :=
  if k < 4 ∨ seq.length ≤ start ∨ 2 < mh then .error .badConstruction
  else .ok (initHash H P
    { seq := seq, offset := 0, start := start, endi := start + k,
      chash := 0, fhash := 0, rhash := 0, k := k, c_outs := [],
      minimized_h := mh, is_valid_hash := false })

/-- `roll_one_skip_over` (lines 540-579). -/
def rollOneSkipOver (H : NtHash) (d : Cursor) : Bool × Cursor :=
  if d.is_valid_hash = false then (false, d)
  else if d.seq.length ≤ d.endi then (false, { d with is_valid_hash := false })
  else
    match d.c_outs with
    | o :: rest =>
      if is_ACTG (d.seq.getD d.endi 0) then
        let f := H.nf d.fhash d.k o (d.seq.getD d.endi 0)
        let r := H.nr d.rhash d.k o (d.seq.getD d.endi 0)
        (true, { d with fhash := f, rhash := r, c_outs := rest,
                        endi := d.endi + 1, chash := H.canon f r })
      else
        let d1 := { d with c_outs := ([] : List Nat), start := d.endi + 1,
                           endi := d.endi + 1 + d.k }
        let d2 := initHashSkipOver H d1
        (d2.is_valid_hash, d2)
    | [] =>
      if is_ACTG (d.seq.getD d.endi 0) then
        let f := H.nf d.fhash d.k (d.seq.getD d.start 0) (d.seq.getD d.endi 0)
        let r := H.nr d.rhash d.k (d.seq.getD d.start 0) (d.seq.getD d.endi 0)
        (true, { d with fhash := f, rhash := r, start := d.start + 1,
                        endi := d.endi + 1, chash := H.canon f r })
      else
        let d1 := { d with start := d.endi + 1, endi := d.endi + 1 + d.k }
        let d2 := initHashSkipOver H d1
        (d2.is_valid_hash, d2)

/-- `roll_one_write_over` (lines 581-605). -/
def rollOneWriteOver (H : NtHash) (d : Cursor) : Bool × Cursor :=
  if d.is_valid_hash = false then (false, d)
  else if d.seq.length ≤ d.endi then (false, { d with is_valid_hash := false })
  else
    let nextChar := subChar (d.seq.getD d.endi 0)
    match d.c_outs with
    | o :: rest =>
      let f := H.nf d.fhash d.k o nextChar
      let r := H.nr d.rhash d.k o nextChar
      (true, { d with fhash := f, rhash := r, c_outs := rest,
                      endi := d.endi + 1, chash := H.canon f r })
    | [] =>
      let outChar := subChar (d.seq.getD d.start 0)
      let f := H.nf d.fhash d.k outChar nextChar
      let r := H.nr d.rhash d.k outChar nextChar
      (true, { d with fhash := f, rhash := r, start := d.start + 1,
                      endi := d.endi + 1, chash := H.canon f r })

/-- `roll_one` (lines 138-144): dispatch on the policy. -/
def rollOne (H : NtHash) (P : Policy) (d : Cursor) : Bool × Cursor :=
  match P with
  | .skipover => rollOneSkipOver H d
  | .writeover => rollOneWriteOver H d

/-- The tail-copy loop of `append_seq_skip_over` (lines 375-385):
`while (temp_vec.size() + c_outs.size() < k - 1 && ind >= start)`; a
non-ACTG byte breaks out, otherwise the byte is pushed and `ind` moves
left, breaking after index 0.  `need` is the remaining capacity
`k - 1 - c_outs.size()` (constant during the loop since only `temp_vec`
grows).  The result is `temp_vec`: bytes in right-to-left order. -/
def tailWalkSkip (seq : List Nat) (start : Nat) : Nat → Nat → List Nat
  | 0, _ => []
  | need+1, ind =>
    if ind < start then []
    else if is_ACTG (seq.getD ind 0) then
      if ind = 0 then [seq.getD ind 0]
      else seq.getD ind 0 :: tailWalkSkip seq start need (ind - 1)
    else []

/-- The tail-copy loop of `append_seq_write_over` (lines 440-451): same
walk, but a non-ACTG byte is replaced by `'A'` instead of breaking. -/
def tailWalkWrite (seq : List Nat) (start : Nat) : Nat → Nat → List Nat
  | 0, _ => []
  | need+1, ind =>
    if ind < start then []
    else
      let ch := if is_ACTG (seq.getD ind 0) then seq.getD ind 0 else 65
      if ind = 0 then [ch]
      else ch :: tailWalkWrite seq start need (ind - 1)

/-- The head-copy loop of `append_seq_skip_over` (lines 394-411), with a
structural step counter (never exhausted when supplied by
`headConsumeSkip`, see `headConsumeSkip_eq`):
`while (c_outs.size() < k && ind < len)`; a non-ACTG byte at `ind` stops
the loop (returned as `some ind`, triggering the re-initialisation
branch), otherwise the byte joins the carry and `ind`/`start`/`end` move
right together (so on exit `start = end = ind`). -/
def headConsumeSkipAux (k : Nat) (s2 : List Nat) : Nat → List Nat → Nat →
    List Nat × Nat × Option Nat
  | 0, c, ind => (c, ind, none)
  | fuel+1, c, ind =>
    if c.length < k ∧ ind < s2.length then
      if is_ACTG (s2.getD ind 0) then
        headConsumeSkipAux k s2 fuel (c ++ [s2.getD ind 0]) (ind + 1)
      else (c, ind, some ind)
    else (c, ind, none)

/-- The head-copy loop of `append_seq_skip_over` with its iteration bound
supplied. -/
def headConsumeSkip (k : Nat) (s2 : List Nat) (c : List Nat) (ind : Nat) :
    List Nat × Nat × Option Nat :=
  headConsumeSkipAux k s2 (s2.length + 1 - ind) c ind

/-- The head-copy loop of `append_seq_write_over` (lines 463-473), with a
structural step counter: always pushes, substituting `'A'` for non-ACTG
bytes. -/
def headConsumeWriteAux (k : Nat) (s2 : List Nat) : Nat → List Nat → Nat →
    List Nat × Nat
  | 0, c, ind => (c, ind)
  | fuel+1, c, ind =>
    if c.length < k ∧ ind < s2.length then
      headConsumeWriteAux k s2 fuel (c ++ [subChar (s2.getD ind 0)]) (ind + 1)
    else (c, ind)

/-- The head-copy loop of `append_seq_write_over` with its iteration
bound supplied. -/
def headConsumeWrite (k : Nat) (s2 : List Nat) (c : List Nat) (ind : Nat) :
    List Nat × Nat :=
  headConsumeWriteAux k s2 (s2.length + 1 - ind) c ind

/-- The `size_t` value of `ind = this->len - 1` at the top of
`append_seq` (lines 352 and 432): it wraps to `2^64 - 1` when the current
sequence is empty, and the subsequent `this->seq[ind]` reads are then out
of bounds in C++ (rendered as byte 0 here). -/
def appendInd0 (d : Cursor) : Nat :=
  if d.seq.length = 0 then U64 - 1 else d.seq.length - 1

/-- The conditional `pop_front` at the top of `append_seq` (lines
369-371 and 434-436): `if ((start != end || c_outs.size() == k) &&
c_outs.size() > 0) c_outs.pop_front()`. -/
def appendPopped (d : Cursor) : List Nat :=
  if (d.start ≠ d.endi ∨ d.c_outs.length = d.k) ∧ d.c_outs ≠ []
  then d.c_outs.tail else d.c_outs

/-- The carry after the pop and the tail walk of `append_seq_skip_over`:
the walked bytes (collected right-to-left into `temp_vec`) are appended
in original order (lines 386-389). -/
def appendCarrySkip (d : Cursor) : List Nat :=
  appendPopped d ++
    (tailWalkSkip d.seq d.start (d.k - 1 - (appendPopped d).length) (appendInd0 d)).reverse

/-- The carry after the pop and the tail walk of
`append_seq_write_over`. -/
def appendCarryWrite (d : Cursor) : List Nat :=
  appendPopped d ++
    (tailWalkWrite d.seq d.start (d.k - 1 - (appendPopped d).length) (appendInd0 d)).reverse

/-- The body of `append_seq_skip_over` after the guard (lines 351-424):
offset update, pop, tail walk, head consume (whose non-ACTG branch
re-initialises on the new slice past the offending index, lines 398-406),
the deque-full hash initialisation (lines 414-422), and the slice swap. -/
def appendBodySkip (H : NtHash) (d : Cursor) (s2 : List Nat) : Cursor :=
  match headConsumeSkip d.k s2 (appendCarrySkip d) 0 with
  | (_, _, some b) =>
    initHashSkipOver H
      { d with seq := s2, offset := d.offset + d.seq.length, start := b + 1,
               endi := b + 1 + d.k, c_outs := ([] : List Nat) }
  | (c3, ind, none) =>
    if c3.length = d.k then
      { d with seq := s2, offset := d.offset + d.seq.length, start := ind,
               endi := ind, c_outs := c3, fhash := H.bf c3, rhash := H.br c3,
               chash := H.canon (H.bf c3) (H.br c3), is_valid_hash := true }
    else
      { d with seq := s2, offset := d.offset + d.seq.length, start := ind,
               endi := ind, c_outs := c3 }

/-- The body of `append_seq_write_over` after the guard (lines 431-486). -/
def appendBodyWrite (H : NtHash) (d : Cursor) (s2 : List Nat) : Cursor :=
  match headConsumeWrite d.k s2 (appendCarryWrite d) 0 with
  | (c3, ind) =>
    if c3.length = d.k then
      { d with seq := s2, offset := d.offset + d.seq.length, start := ind,
               endi := ind, c_outs := c3, fhash := H.bf c3, rhash := H.br c3,
               chash := H.canon (H.bf c3) (H.br c3), is_valid_hash := true }
    else
      { d with seq := s2, offset := d.offset + d.seq.length, start := ind,
               endi := ind, c_outs := c3 }

/-- `append_seq_skip_over` (lines 347-425): the `NotRolledTillEnd` guard,
then the body. -/
def appendSeqSkipOver (H : NtHash) (d : Cursor) (s2 : List Nat) :
    Option CppExc × Cursor :=
  if d.endi < d.seq.length then (some .notRolledTillEnd, d)
  else (none, appendBodySkip H d s2)

/-- `append_seq_write_over` (lines 427-487): the `NotRolledTillEnd`
guard, then the body. -/
def appendSeqWriteOver (H : NtHash) (d : Cursor) (s2 : List Nat) :
    Option CppExc × Cursor :=
  if d.endi < d.seq.length then (some .notRolledTillEnd, d)
  else (none, appendBodyWrite H d s2)

/-- `append_seq` (lines 253-259): dispatch on the policy. -/
def appendSeq (H : NtHash) (P : Policy) (d : Cursor) (s2 : List Nat) :
    Option CppExc × Cursor :=
  match P with
  | .skipover => appendSeqSkipOver H d s2
  | .writeover => appendSeqWriteOver H d s2

/-- `new_seq` (lines 209-220): overwrite the slice, reset `offset`, set
`start`/`end`, clear validity, and only then check `start >= len`,
throwing with the mutations already applied; otherwise `init_hash()`. -/
def newSeq (H : NtHash) (P : Policy) (d : Cursor) (s2 : List Nat) (start : Nat) :
    Option CppExc × Cursor :=
  let d1 := { d with seq := s2, offset := 0, start := start,
                     endi := start + d.k, is_valid_hash := false }
  if s2.length ≤ start then (some .badConstruction, d1)
  else (none, initHash H P d1)

/-- The observable tuple of a cursor state:
`(get_pos(), get_fhash(), get_rhash(), get_chash())`. -/
def obsOf (d : Cursor) : Nat × Nat × Nat × Nat :=
  (getPos d, d.fhash, d.rhash, d.chash)

/-- Repeated `roll_one` with a step budget, collecting the observable tuple
after every call that returns `true` and stopping at the first `false`
(the "roll until it returns false" protocol). -/
def rollAllObs (H : NtHash) (P : Policy) : Nat → Cursor → List (Nat × Nat × Nat × Nat) × Cursor
  | 0, d => ([], d)
  | fuel+1, d =>
    let r := rollOne H P d
    if r.1 then
      let t := rollAllObs H P fuel r.2
      (obsOf r.2 :: t.1, t.2)
    else ([], r.2)

/-- `n` consecutive `roll_one` calls, keeping only the final state. -/
def rollIter (H : NtHash) (P : Policy) : Nat → Cursor → Cursor
  | 0, d => d
  | n+1, d => rollIter H P n (rollOne H P d).2

/-- The single-digester run: construct on `S`, record the observable tuple
if the initial hash is valid, then roll to the end recording each tuple.
`none` when construction throws.  The step budget `S.length + k + 2`
exceeds the number of successful rolls possible on `S`. -/
def runSingle (H : NtHash) (P : Policy) (S : List Nat) (k start : Nat) (mh : Int) :
    Option (List (Nat × Nat × Nat × Nat)) :=
  match construct H P S k start mh with
  | .error _ => none
  | .ok d =>
    some ((if d.is_valid_hash then [obsOf d] else []) ++
          (rollAllObs H P (S.length + k + 2) d).1)

/-- The split run with two appends: construct on `S1`, roll to the end,
`append_seq(S2)`, roll to the end, `append_seq(S3)`, roll to the end,
recording the observable tuple at construction and after each append when
valid, and after every successful roll.  `none` when construction throws
or an append throws (the latter cannot happen after rolling to the end). -/
def runAppendTwice (H : NtHash) (P : Policy) (S1 S2 S3 : List Nat) (k start : Nat)
    (mh : Int) : Option (List (Nat × Nat × Nat × Nat)) :=
  match construct H P S1 k start mh with
  | .error _ => none
  | .ok d =>
    let o1 := if d.is_valid_hash then [obsOf d] else []
    let r1 := rollAllObs H P (S1.length + k + 2) d
    let a1 := appendSeq H P r1.2 S2
    match a1.1 with
    | some _ => none
    | none =>
      let o2 := if a1.2.is_valid_hash then [obsOf a1.2] else []
      let r2 := rollAllObs H P (S2.length + k + 2) a1.2
      let a2 := appendSeq H P r2.2 S3
      match a2.1 with
      | some _ => none
      | none =>
        let o3 := if a2.2.is_valid_hash then [obsOf a2.2] else []
        let r3 := rollAllObs H P (S3.length + k + 2) a2.2
        some (o1 ++ r1.1 ++ o2 ++ r2.1 ++ o3 ++ r3.1)

/-- The cursor with its backing slice replaced by the WRITEOVER
substitution of itself: the state a SKIPOVER digester holds when it runs
on `S' = S` with every non-ACTG byte replaced by `'A'` while a WRITEOVER
digester runs on `S`, all other fields agreeing. -/
def mirrorOf (d : Cursor) : Cursor := { d with seq := d.seq.map subChar }

/-- The shape every WRITEOVER cursor keeps through construction and
rolling (no appends): an empty carry, a positive `k`, and in valid states
a full window `end = start + k ≤ len`. -/
def WOk (d : Cursor) : Prop :=
  d.c_outs = [] ∧ 1 ≤ d.k ∧
  (d.is_valid_hash = true → d.endi = d.start + d.k ∧ d.endi ≤ d.seq.length)

/-- A placeholder cursor for unwrapping `Except` results on inputs where
construction is known to succeed. -/
def dummyCursor : Cursor := ⟨[], 0, 0, 0, 0, 0, 0, 0, [], 0, false⟩

/-- Unwraps a construction result (the placeholder is never reached on
the concrete inputs this is applied to). -/
def cursorOf (r : Except CppExc Cursor) : Cursor :=
  match r with
  | .ok d => d
  | .error _ => dummyCursor

/-- The state reached by `Digester("NAAAA", 5, 4, 0)` (SKIPOVER) followed
by `append_seq("", 0)`: construction initialises at the k-mer `AAAA` at
position 1; the empty append carries the last three bytes into `c_outs`
but, finding nothing to complete a window with, leaves `is_valid_hash`
untouched at `true` while `get_pos()` has moved. -/
def exampleStale (H : NtHash) : Cursor :=
  (appendSeqSkipOver H (cursorOf (construct H .skipover [78, 65, 65, 65, 65] 4 0 0)) []).2

/-- The result of `Digester("AAAAA", 5, 4, 0)` (SKIPOVER), two `roll_one`
calls (the second runs off the end), then `append_seq("AAA", 3)`. -/
def exampleCarryFull (H : NtHash) : Option CppExc × Cursor :=
  appendSeqSkipOver H
    (rollOne H .skipover
      (rollOne H .skipover (cursorOf (construct H .skipover [65, 65, 65, 65, 65] 4 0 0))).2).2
    [65, 65, 65]

/-- States reachable through the public lifecycle: a successful
construction, any number of `roll_one` calls, any `append_seq` whose
precondition holds (a failing `append_seq` throws before mutating, so it
adds no state), and any successful `new_seq`.  The first component is the
virtual concatenation of all sequences appended since the last
(re-)initialisation, against which absolute positions are read. -/
inductive Reach (H : NtHash) (P : Policy) : List Nat → Cursor → Prop where
  | construct : ∀ S k s mh d, construct H P S k s mh = .ok d → Reach H P S d
  | roll : ∀ V d, Reach H P V d → Reach H P V (rollOne H P d).2
  | append : ∀ V d s2, Reach H P V d → d.seq.length ≤ d.endi →
      Reach H P (V ++ s2) (appendSeq H P d s2).2
  | newseq : ∀ V d s2 s, Reach H P V d → s < s2.length →
      Reach H P s2 (newSeq H P d s2 s).2

/-- A position `t` of `seq` at which a fresh k-mer hash can be
initialised: the window fits, and under SKIPOVER it is free of non-ACTG
bytes (under WRITEOVER every fitting window qualifies). -/
def goodWindow (P : Policy) (seq : List Nat) (k t : Nat) : Prop :=
  t + k ≤ seq.length ∧ (P = .skipover → allACTG (windowOf seq t (t + k)) = true)

/-- The SKIPOVER state invariant, relative to the virtual concatenation
`V`.  `hcarry`: a non-empty carry holds exactly the bytes of `V` just
before the absolute index `offset + start`, and they are all ACTG.
`hvalid`: in a valid state the window `seq[start..end)` is all ACTG and
either the normal shape `end = start + (k - |c_outs|) ≤ len` holds, or the
state is the stale shape left by appending an empty sequence.
`hinvalid`: an invalid state with a non-empty carry sits at `end = len`
with an all-ACTG tail `seq[start..len)`. -/
structure InvSkip (V : List Nat) (d : Cursor) : Prop where
  hseq : d.seq = V.drop d.offset
  hoff : d.offset ≤ V.length
  hk : 4 ≤ d.k
  hclen : d.c_outs.length ≤ d.k
  hcarry : d.c_outs ≠ [] →
    d.c_outs.length ≤ d.offset + d.start ∧ d.offset + d.start ≤ V.length ∧
    d.c_outs = windowOf V (d.offset + d.start - d.c_outs.length) (d.offset + d.start) ∧
    allACTG d.c_outs = true
  hvalid : d.is_valid_hash = true →
    allACTG (windowOf d.seq d.start d.endi) = true ∧
    (d.endi = d.start + (d.k - d.c_outs.length) ∧ d.endi ≤ d.seq.length ∨
     d.seq.length = 0 ∧ d.start = 0 ∧ d.endi = 0 ∧ d.c_outs.length = d.k - 1)
  hinvalid : d.is_valid_hash = false → d.c_outs ≠ [] →
    d.endi = d.seq.length ∧ d.start ≤ d.seq.length ∧
    (d.start = d.endi ∨ d.endi = d.start + (d.k - d.c_outs.length)) ∧
    allACTG (windowOf d.seq d.start d.seq.length) = true

/-! ## Window lemmas -/

theorem windowOf_nil_of_le {l : List Nat} {a b : Nat} (h : b ≤ a) :
    windowOf l a b = [] := by
  simp [windowOf, Nat.sub_eq_zero_of_le h]

theorem windowOf_length {l : List Nat} {a b : Nat} (h1 : a ≤ b) (h2 : b ≤ l.length) :
    (windowOf l a b).length = b - a := by
  simp [windowOf]
  omega

theorem windowOf_concat {l : List Nat} {a b c : Nat} (h1 : a ≤ b) (h2 : b ≤ c) :
    windowOf l a b ++ windowOf l b c = windowOf l a c := by
  unfold windowOf
  have hc : c - a = (b - a) + (c - b) := by omega
  rw [hc, List.take_add, List.drop_drop]
  have : a + (b - a) = b := by omega
  rw [this]

theorem windowOf_prefix {l m : List Nat} {a b : Nat} (h : b ≤ l.length) :
    windowOf (l ++ m) a b = windowOf l a b := by
  rcases Nat.le_total b a with hab | hab
  · rw [windowOf_nil_of_le hab, windowOf_nil_of_le hab]
  · unfold windowOf
    rw [List.drop_append_of_le_length (by omega)]
    rw [List.take_append_of_le_length (by simp; omega)]

theorem windowOf_of_drop {l : List Nat} {o a b : Nat} :
    windowOf (l.drop o) a b = windowOf l (o + a) (o + b) := by
  unfold windowOf
  rw [List.drop_drop]
  have : o + b - (o + a) = b - a := by omega
  rw [this]

theorem windowOf_cons {l : List Nat} {a b : Nat} (h1 : a < b) (h2 : a < l.length) :
    windowOf l a b = l.getD a 0 :: windowOf l (a + 1) b := by
  unfold windowOf
  have hd : l.drop a = l.getD a 0 :: l.drop (a + 1) := by
    rw [List.getD_eq_getElem?_getD, List.getElem?_eq_getElem h2]
    exact (List.drop_eq_getElem_cons h2).trans rfl
  rw [hd]
  have : b - a = (b - (a + 1)) + 1 := by omega
  rw [this, List.take_succ_cons]

theorem windowOf_snoc {l : List Nat} {a b : Nat} (h1 : a ≤ b) (h2 : b < l.length) :
    windowOf l a (b + 1) = windowOf l a b ++ [l.getD b 0] := by
  have := windowOf_concat (l := l) (a := a) (b := b) (c := b + 1) h1 (by omega)
  rw [← this]
  congr 1
  rw [windowOf_cons (by omega) h2, windowOf_nil_of_le (by omega)]

theorem allACTG_append {l m : List Nat} :
    allACTG (l ++ m) = (allACTG l && allACTG m) := by
  simp [allACTG, List.all_append]

theorem allACTG_iff_getD {l : List Nat} {a b : Nat} (h : b ≤ l.length) :
    allACTG (windowOf l a b) = true ↔
      ∀ i, a ≤ i → i < b → is_ACTG (l.getD i 0) = true := by
  rcases Nat.le_total b a with hab | hab
  · rw [windowOf_nil_of_le hab]
    constructor
    · intro _ i hi1 hi2
      omega
    · intro _
      rfl
  · induction b with
    | zero =>
      rw [windowOf_nil_of_le (by omega)]
      constructor
      · intro _ i hi1 hi2
        omega
      · intro _
        rfl
    | succ b ih =>
      rcases Nat.lt_or_ge a (b + 1) with hlt | hge
      · rcases Nat.le_total b a with hba | hba
        · have hab' : a = b := by omega
          subst hab'
          rw [windowOf_cons (by omega) (by omega), windowOf_nil_of_le (by omega)]
          simp only [allACTG, List.all_cons, List.all_nil, Bool.and_true]
          constructor
          · intro hx i hi1 hi2
            have : i = a := by omega
            rw [this]
            exact hx
          · intro hx
            exact hx a (Nat.le_refl a) (by omega)
        · rw [windowOf_snoc hba (by omega), allACTG_append]
          rw [Bool.and_eq_true]
          have ihh := ih (by omega) (by omega)
          constructor
          · intro hx i hi1 hi2
            rcases Nat.lt_or_ge i b with hib | hib
            · exact ihh.mp hx.1 i hi1 hib
            · have : i = b := by omega
              rw [this]
              have := hx.2
              simpa [allACTG] using this
          · intro hx
            refine ⟨ihh.mpr (fun i h1 h2 => hx i h1 (by omega)), ?_⟩
            simpa [allACTG] using hx b hba (by omega)
      · rw [windowOf_nil_of_le (by omega)]
        constructor
        · intro _ i hi1 hi2
          omega
        · intro _
          rfl

set_option maxRecDepth 4000 in
/-- The direct form of `is_ACTG` agrees with the transcribed `actg` table
at every byte value. -/
theorem is_ACTG_eq_table : ∀ b, b < 256 → is_ACTG b = actgTable.getD b false := by
  decide

/-! ## Branch equations for `roll_one` and `append_seq` -/

theorem rollOne_invalid {H : NtHash} {P : Policy} {d : Cursor}
    (h : d.is_valid_hash = false) : rollOne H P d = (false, d) := by
  cases P <;> simp [rollOne, rollOneSkipOver, rollOneWriteOver, h]

theorem rollOne_off_end {H : NtHash} {P : Policy} {d : Cursor}
    (h : d.is_valid_hash = true) (h2 : d.seq.length ≤ d.endi) :
    rollOne H P d = (false, { d with is_valid_hash := false }) := by
  cases P <;> simp [rollOne, rollOneSkipOver, rollOneWriteOver, h, h2]

theorem rollSkip_cons_good {H : NtHash} {d : Cursor} {o : Nat} {rest : List Nat}
    (h : d.is_valid_hash = true) (h2 : d.endi < d.seq.length)
    (hc : d.c_outs = o :: rest) (ha : is_ACTG (d.seq.getD d.endi 0) = true) :
    rollOneSkipOver H d =
      (true, { d with fhash := H.nf d.fhash d.k o (d.seq.getD d.endi 0),
                      rhash := H.nr d.rhash d.k o (d.seq.getD d.endi 0),
                      c_outs := rest, endi := d.endi + 1,
                      chash := H.canon (H.nf d.fhash d.k o (d.seq.getD d.endi 0))
                                       (H.nr d.rhash d.k o (d.seq.getD d.endi 0)) }) := by
  unfold rollOneSkipOver
  rw [if_neg (by simp [h]), if_neg (by omega), hc]
  simp only [ha, eq_self_iff_true, if_true, Bool.false_eq_true, if_false]

theorem rollSkip_cons_bad {H : NtHash} {d : Cursor} {o : Nat} {rest : List Nat}
    (h : d.is_valid_hash = true) (h2 : d.endi < d.seq.length)
    (hc : d.c_outs = o :: rest) (ha : is_ACTG (d.seq.getD d.endi 0) = false) :
    rollOneSkipOver H d =
      ((initHashSkipOver H { d with c_outs := ([] : List Nat), start := d.endi + 1,
                                    endi := d.endi + 1 + d.k }).is_valid_hash,
        initHashSkipOver H { d with c_outs := ([] : List Nat), start := d.endi + 1,
                                    endi := d.endi + 1 + d.k }) := by
  unfold rollOneSkipOver
  rw [if_neg (by simp [h]), if_neg (by omega), hc]
  simp only [ha, eq_self_iff_true, if_true, Bool.false_eq_true, if_false]

theorem rollSkip_nil_good {H : NtHash} {d : Cursor}
    (h : d.is_valid_hash = true) (h2 : d.endi < d.seq.length)
    (hc : d.c_outs = []) (ha : is_ACTG (d.seq.getD d.endi 0) = true) :
    rollOneSkipOver H d =
      (true, { d with fhash := H.nf d.fhash d.k (d.seq.getD d.start 0) (d.seq.getD d.endi 0),
                      rhash := H.nr d.rhash d.k (d.seq.getD d.start 0) (d.seq.getD d.endi 0),
                      start := d.start + 1, endi := d.endi + 1,
                      chash := H.canon
                        (H.nf d.fhash d.k (d.seq.getD d.start 0) (d.seq.getD d.endi 0))
                        (H.nr d.rhash d.k (d.seq.getD d.start 0) (d.seq.getD d.endi 0)) }) := by
  unfold rollOneSkipOver
  rw [if_neg (by simp [h]), if_neg (by omega), hc]
  simp only [ha, eq_self_iff_true, if_true, Bool.false_eq_true, if_false]

theorem rollSkip_nil_bad {H : NtHash} {d : Cursor}
    (h : d.is_valid_hash = true) (h2 : d.endi < d.seq.length)
    (hc : d.c_outs = []) (ha : is_ACTG (d.seq.getD d.endi 0) = false) :
    rollOneSkipOver H d =
      ((initHashSkipOver H { d with start := d.endi + 1,
                                    endi := d.endi + 1 + d.k }).is_valid_hash,
        initHashSkipOver H { d with start := d.endi + 1, endi := d.endi + 1 + d.k }) := by
  unfold rollOneSkipOver
  rw [if_neg (by simp [h]), if_neg (by omega), hc]
  simp only [ha, eq_self_iff_true, if_true, Bool.false_eq_true, if_false]

theorem rollWrite_cons {H : NtHash} {d : Cursor} {o : Nat} {rest : List Nat}
    (h : d.is_valid_hash = true) (h2 : d.endi < d.seq.length)
    (hc : d.c_outs = o :: rest) :
    rollOneWriteOver H d =
      (true, { d with fhash := H.nf d.fhash d.k o (subChar (d.seq.getD d.endi 0)),
                      rhash := H.nr d.rhash d.k o (subChar (d.seq.getD d.endi 0)),
                      c_outs := rest, endi := d.endi + 1,
                      chash := H.canon (H.nf d.fhash d.k o (subChar (d.seq.getD d.endi 0)))
                                       (H.nr d.rhash d.k o (subChar (d.seq.getD d.endi 0))) }) := by
  unfold rollOneWriteOver
  rw [if_neg (by simp [h]), if_neg (by omega), hc]

theorem rollWrite_nil {H : NtHash} {d : Cursor}
    (h : d.is_valid_hash = true) (h2 : d.endi < d.seq.length)
    (hc : d.c_outs = []) :
    rollOneWriteOver H d =
      (true, { d with
        fhash := H.nf d.fhash d.k (subChar (d.seq.getD d.start 0)) (subChar (d.seq.getD d.endi 0)),
        rhash := H.nr d.rhash d.k (subChar (d.seq.getD d.start 0)) (subChar (d.seq.getD d.endi 0)),
        start := d.start + 1, endi := d.endi + 1,
        chash := H.canon
          (H.nf d.fhash d.k (subChar (d.seq.getD d.start 0)) (subChar (d.seq.getD d.endi 0)))
          (H.nr d.rhash d.k (subChar (d.seq.getD d.start 0)) (subChar (d.seq.getD d.endi 0))) }) := by
  unfold rollOneWriteOver
  rw [if_neg (by simp [h]), if_neg (by omega), hc]

theorem appendSeq_guard {H : NtHash} {P : Policy} {d : Cursor} {s2 : List Nat}
    (h : d.endi < d.seq.length) :
    appendSeq H P d s2 = (some .notRolledTillEnd, d) := by
  cases P <;> simp [appendSeq, appendSeqSkipOver, appendSeqWriteOver, h]

theorem appendSeq_no_guard {H : NtHash} {P : Policy} {d : Cursor} {s2 : List Nat}
    (h : d.seq.length ≤ d.endi) :
    appendSeq H P d s2 =
      (none, match P with
             | .skipover => appendBodySkip H d s2
             | .writeover => appendBodyWrite H d s2) := by
  cases P <;> simp [appendSeq, appendSeqSkipOver, appendSeqWriteOver, Nat.not_lt.mpr h]

/-! ## Claim C6 -/

/-- C6: `append_seq` raises `NotRolledTillEnd` exactly when the cursor
has not rolled to the end of the current slice (`end < len`), and when it
raises the cursor state is returned untouched. -/
theorem append_seq_throw_iff_not_rolled (H : NtHash) (P : Policy) (d : Cursor)
    (s2 : List Nat) :
    ((appendSeq H P d s2).1.isSome ↔ d.endi < d.seq.length) ∧
    (d.endi < d.seq.length → appendSeq H P d s2 = (some .notRolledTillEnd, d)) := by
  rcases Nat.lt_or_ge d.endi d.seq.length with hl | hl
  · rw [appendSeq_guard hl]
    exact ⟨by simp [hl], fun _ => rfl⟩
  · rw [appendSeq_no_guard hl]
    constructor
    · simp
      omega
    · intro hcon
      omega

theorem append_seq_throw_iff_not_rolled_witness :
    (appendSeq H0 .skipover
        { seq := [65, 65, 65, 65, 65], offset := 0, start := 0, endi := 4, chash := 0,
          fhash := 0, rhash := 0, k := 4, c_outs := [], minimized_h := 0,
          is_valid_hash := true } [67, 67]).1.isSome = true ∧
    appendSeq H0 .skipover
        { seq := [65, 65, 65, 65, 65], offset := 0, start := 0, endi := 4, chash := 0,
          fhash := 0, rhash := 0, k := 4, c_outs := [], minimized_h := 0,
          is_valid_hash := true } [67, 67] =
      (some .notRolledTillEnd,
        { seq := [65, 65, 65, 65, 65], offset := 0, start := 0, endi := 4, chash := 0,
          fhash := 0, rhash := 0, k := 4, c_outs := [], minimized_h := 0,
          is_valid_hash := true }) := by
  have h := append_seq_throw_iff_not_rolled H0 .skipover
    { seq := [65, 65, 65, 65, 65], offset := 0, start := 0, endi := 4, chash := 0,
      fhash := 0, rhash := 0, k := 4, c_outs := [], minimized_h := 0,
      is_valid_hash := true } [67, 67]
  exact ⟨h.1.mpr (by decide), h.2 (by decide)⟩

/-! ## Claim C8 -/

/-- C8: under both policies, a `roll_one` on an already-invalid cursor or
with `end ≥ len` returns false and leaves the cursor invalid with its
position and hashes unchanged, and every later `roll_one` (any number of
calls) returns false on the exact same state. -/
theorem roll_one_off_end_idempotent (H : NtHash) (P : Policy) (d : Cursor)
    (h : d.is_valid_hash = false ∨ d.seq.length ≤ d.endi) :
    (rollOne H P d).1 = false ∧
    (rollOne H P d).2.is_valid_hash = false ∧
    getPos (rollOne H P d).2 = getPos d ∧
    (rollOne H P d).2.fhash = d.fhash ∧
    (rollOne H P d).2.rhash = d.rhash ∧
    (rollOne H P d).2.chash = d.chash ∧
    ∀ n, rollIter H P n (rollOne H P d).2 = (rollOne H P d).2 := by
  have step : ∀ e : Cursor, e.is_valid_hash = false →
      ∀ n, rollIter H P n e = e := by
    intro e he n
    induction n with
    | zero => rfl
    | succ m ih =>
      show rollIter H P m (rollOne H P e).2 = e
      rw [rollOne_invalid he]
      exact ih
  rcases h with h | h
  · rw [rollOne_invalid h]
    exact ⟨rfl, h, rfl, rfl, rfl, rfl, step d h⟩
  · rcases hv : d.is_valid_hash with hv0 | hv1
    · rw [rollOne_invalid hv]
      exact ⟨rfl, hv, rfl, rfl, rfl, rfl, step d hv⟩
    · rw [rollOne_off_end hv h]
      exact ⟨rfl, rfl, rfl, rfl, rfl, rfl, step _ rfl⟩

theorem roll_one_off_end_idempotent_witness :
    (rollOne H0 .skipover
        { seq := [65, 65, 65, 65], offset := 0, start := 0, endi := 4, chash := 3,
          fhash := 4, rhash := 5, k := 4, c_outs := [], minimized_h := 0,
          is_valid_hash := true }).1 = false ∧
    (rollOne H0 .skipover
        { seq := [65, 65, 65, 65], offset := 0, start := 0, endi := 4, chash := 3,
          fhash := 4, rhash := 5, k := 4, c_outs := [], minimized_h := 0,
          is_valid_hash := true }).2.is_valid_hash = false := by
  have h := roll_one_off_end_idempotent H0 .skipover
    { seq := [65, 65, 65, 65], offset := 0, start := 0, endi := 4, chash := 3,
      fhash := 4, rhash := 5, k := 4, c_outs := [], minimized_h := 0,
      is_valid_hash := true } (Or.inr (by decide))
  exact ⟨h.1, h.2.1⟩

/-! ## Claim C9 -/

/-- C9: the claim states that `is_ACTG` performs an in-bounds lookup for
every byte, including bytes ≥ 0x80.  In the source, `is_ACTG` takes a plain
(signed) `char` and indexes `actg` with it, so byte 0x80 arrives as -128
and the lookup is out of bounds (`none` in the model), contradicting the
claim; for bytes below 0x80 the lookup is in bounds and returns true
exactly on ACGT/acgt. -/
theorem is_ACTG_signed_char_out_of_bounds :
    is_ACTG_cpp (charOfByte 128) = none ∧
    is_ACTG_cpp (charOfByte 255) = none ∧
    is_ACTG_cpp (charOfByte 65) = some true ∧
    is_ACTG_cpp (charOfByte 84) = some true ∧
    is_ACTG_cpp (charOfByte 116) = some true ∧
    is_ACTG_cpp (charOfByte 78) = some false := by
  decide

/-! ## Initialisation: `findKmer` and `init_hash` specifications -/

theorem firstBadRel_some {seq : List Nat} {n : Nat} : ∀ {i j : Nat},
    firstBadRel seq i n = some j →
    j < n ∧ is_ACTG (seq.getD (i + j) 0) = false ∧
      ∀ m, m < j → is_ACTG (seq.getD (i + m) 0) = true := by
  induction n with
  | zero =>
    intro i j h
    simp [firstBadRel] at h
  | succ n ih =>
    intro i j h
    rw [firstBadRel] at h
    by_cases hA : is_ACTG (seq.getD i 0) = true
    · rw [if_pos hA] at h
      rcases Option.map_eq_some'.mp h with ⟨j', hj', hjj⟩
      rcases ih hj' with ⟨h1, h2, h3⟩
      subst hjj
      refine ⟨by omega, ?_, ?_⟩
      · have he : i + (j' + 1) = i + 1 + j' := by omega
        rw [he]
        exact h2
      · intro m hm
        cases m with
        | zero => simpa using hA
        | succ m' =>
          have he : i + (m' + 1) = i + 1 + m' := by omega
          rw [he]
          exact h3 m' (by omega)
    · rw [if_neg hA] at h
      have hj0 : j = 0 := by simpa using h.symm
      subst hj0
      refine ⟨by omega, ?_, fun m hm => by omega⟩
      simpa using (Bool.eq_false_iff.mpr (fun hcon => hA hcon))

theorem firstBadRel_none {seq : List Nat} {n : Nat} : ∀ {i : Nat},
    firstBadRel seq i n = none →
    ∀ m, m < n → is_ACTG (seq.getD (i + m) 0) = true := by
  induction n with
  | zero =>
    intro i _ m hm
    omega
  | succ n ih =>
    intro i h m hm
    rw [firstBadRel] at h
    by_cases hA : is_ACTG (seq.getD i 0) = true
    · rw [if_pos hA] at h
      have hrec := Option.map_eq_none'.mp h
      cases m with
      | zero => simpa using hA
      | succ m' =>
        have he : i + (m' + 1) = i + 1 + m' := by omega
        rw [he]
        exact ih hrec m' (by omega)
    · rw [if_neg hA] at h
      simp at h

theorem firstBadRel_none_iff {seq : List Nat} {s k : Nat} (h : s + k ≤ seq.length) :
    firstBadRel seq s k = none ↔ allACTG (windowOf seq s (s + k)) = true := by
  constructor
  · intro hn
    rw [allACTG_iff_getD (by omega)]
    intro i hi1 hi2
    have := firstBadRel_none hn (i - s) (by omega)
    have he : s + (i - s) = i := by omega
    rwa [he] at this
  · intro hall
    rcases hfb : firstBadRel seq s k with _ | j
    · rfl
    · rcases firstBadRel_some hfb with ⟨h1, h2, _⟩
      have := (allACTG_iff_getD (by omega)).mp hall (s + j) (by omega) (by omega)
      rw [this] at h2
      cases h2

theorem findKmerAux_irrel (seq : List Nat) (k : Nat) : ∀ f1 : Nat, ∀ f2 s : Nat,
    seq.length + 1 ≤ s + f1 → seq.length + 1 ≤ s + f2 →
    findKmerAux seq k f1 s = findKmerAux seq k f2 s := by
  intro f1
  induction f1 with
  | zero =>
    intro f2 s h1 h2
    cases f2 with
    | zero => rfl
    | succ f2' =>
      rw [findKmerAux, findKmerAux, if_neg (by omega)]
  | succ f1' ih =>
    intro f2 s h1 h2
    cases f2 with
    | zero =>
      rw [findKmerAux, findKmerAux, if_neg (by omega)]
    | succ f2' =>
      rw [findKmerAux, findKmerAux]
      by_cases hc : s + k ≤ seq.length
      · rw [if_pos hc, if_pos hc]
        rcases hfb : firstBadRel seq s k with _ | j
        · rfl
        · exact ih f2' (s + j + 1) (by omega) (by omega)
      · rw [if_neg hc, if_neg hc]

theorem findKmer_eq (seq : List Nat) (k s : Nat) :
    findKmer seq k s =
      if s + k ≤ seq.length then
        match firstBadRel seq s k with
        | some j => findKmer seq k (s + j + 1)
        | none => (true, s)
      else (false, s) := by
  show findKmerAux seq k (seq.length + 1 - s) s = _
  by_cases hs : s ≤ seq.length
  · have hpos : seq.length + 1 - s = (seq.length - s) + 1 := by omega
    rw [hpos, findKmerAux]
    by_cases hc : s + k ≤ seq.length
    · rw [if_pos hc, if_pos hc]
      rcases hfb : firstBadRel seq s k with _ | j
      · rfl
      · exact findKmerAux_irrel seq k (seq.length - s) (seq.length + 1 - (s + j + 1))
          (s + j + 1) (by omega) (by omega)
    · rw [if_neg hc, if_neg hc]
  · have h0 : seq.length + 1 - s = 0 ∨ seq.length + 1 - s = 1 := by omega
    have hc : ¬(s + k ≤ seq.length) := by omega
    rcases h0 with h0 | h0 <;> rw [h0]
    · rw [findKmerAux, if_neg hc]
    · rw [findKmerAux, if_neg hc, if_neg hc]

theorem findKmer_spec (seq : List Nat) (k : Nat) : ∀ s : Nat,
    s ≤ (findKmer seq k s).2 ∧
    ((findKmer seq k s).1 = true →
      (findKmer seq k s).2 + k ≤ seq.length ∧
      allACTG (windowOf seq (findKmer seq k s).2 ((findKmer seq k s).2 + k)) = true ∧
      ∀ t, s ≤ t → t < (findKmer seq k s).2 →
        ¬(t + k ≤ seq.length ∧ allACTG (windowOf seq t (t + k)) = true)) ∧
    ((findKmer seq k s).1 = false →
      seq.length < (findKmer seq k s).2 + k ∧
      ∀ t, s ≤ t → ¬(t + k ≤ seq.length ∧ allACTG (windowOf seq t (t + k)) = true)) := by
  have main : ∀ fuel s : Nat, seq.length + 1 ≤ s + fuel →
      s ≤ (findKmer seq k s).2 ∧
      ((findKmer seq k s).1 = true →
        (findKmer seq k s).2 + k ≤ seq.length ∧
        allACTG (windowOf seq (findKmer seq k s).2 ((findKmer seq k s).2 + k)) = true ∧
        ∀ t, s ≤ t → t < (findKmer seq k s).2 →
          ¬(t + k ≤ seq.length ∧ allACTG (windowOf seq t (t + k)) = true)) ∧
      ((findKmer seq k s).1 = false →
        seq.length < (findKmer seq k s).2 + k ∧
        ∀ t, s ≤ t → ¬(t + k ≤ seq.length ∧ allACTG (windowOf seq t (t + k)) = true)) := by
    intro fuel
    induction fuel with
    | zero =>
      intro s hb
      have hc : ¬(s + k ≤ seq.length) := by omega
      rw [findKmer_eq, if_neg hc]
      refine ⟨Nat.le_refl s, ?_, ?_⟩
      · intro ht
        exact absurd ht (by simp)
      · intro _
        exact ⟨by omega, fun t ht hcon => hc (by omega)⟩
    | succ fuel ih =>
      intro s hb
      by_cases hc : s + k ≤ seq.length
      · rcases hfb : firstBadRel seq s k with _ | j
        · have heq : findKmer seq k s = (true, s) := by
            rw [findKmer_eq, if_pos hc, hfb]
          rw [heq]
          refine ⟨Nat.le_refl s, ?_, ?_⟩
          · intro _
            exact ⟨hc, (firstBadRel_none_iff hc).mp hfb, fun t ht1 ht2 => by omega⟩
          · intro hf
            exact absurd hf (by simp)
        · have heq : findKmer seq k s = findKmer seq k (s + j + 1) := by
            rw [findKmer_eq, if_pos hc, hfb]
          rcases firstBadRel_some hfb with ⟨hj1, hj2, _⟩
          rcases ih (s + j + 1) (by omega) with ⟨ih1, ih2, ih3⟩
          have hskip : ∀ t, s ≤ t → t < s + j + 1 →
              ¬(t + k ≤ seq.length ∧ allACTG (windowOf seq t (t + k)) = true) := by
            intro t ht1 ht2 hcon
            have hmem := (allACTG_iff_getD (by omega)).mp hcon.2 (s + j) (by omega) (by omega)
            rw [hmem] at hj2
            cases hj2
          rw [heq]
          refine ⟨by omega, ?_, ?_⟩
          · intro htrue
            rcases ih2 htrue with ⟨g1, g2, g3⟩
            refine ⟨g1, g2, fun t ht1 ht2 => ?_⟩
            rcases Nat.lt_or_ge t (s + j + 1) with hlt | hge
            · exact hskip t ht1 hlt
            · exact g3 t hge ht2
          · intro hfalse
            rcases ih3 hfalse with ⟨g1, g2⟩
            refine ⟨g1, fun t ht1 => ?_⟩
            rcases Nat.lt_or_ge t (s + j + 1) with hlt | hge
            · exact hskip t ht1 hlt
            · exact g2 t hge
      · rw [findKmer_eq, if_neg hc]
        refine ⟨Nat.le_refl s, ?_, ?_⟩
        · intro ht
          exact absurd ht (by simp)
        · intro _
          exact ⟨by omega, fun t ht hcon => hc (by omega)⟩
  intro s
  exact main (seq.length + 1) s (by omega)

theorem initHashSkipOver_eq (H : NtHash) (d : Cursor) :
    initHashSkipOver H d =
      if (findKmer d.seq d.k d.start).1 then
        { d with start := (findKmer d.seq d.k d.start).2,
                 endi := (findKmer d.seq d.k d.start).2 + d.k,
                 fhash := H.bf (windowOf d.seq (findKmer d.seq d.k d.start).2
                                 ((findKmer d.seq d.k d.start).2 + d.k)),
                 rhash := H.br (windowOf d.seq (findKmer d.seq d.k d.start).2
                                 ((findKmer d.seq d.k d.start).2 + d.k)),
                 chash := H.canon
                   (H.bf (windowOf d.seq (findKmer d.seq d.k d.start).2
                            ((findKmer d.seq d.k d.start).2 + d.k)))
                   (H.br (windowOf d.seq (findKmer d.seq d.k d.start).2
                            ((findKmer d.seq d.k d.start).2 + d.k))),
                 c_outs := ([] : List Nat), is_valid_hash := true }
      else
        { d with start := (findKmer d.seq d.k d.start).2,
                 endi := (findKmer d.seq d.k d.start).2 + d.k,
                 c_outs := ([] : List Nat), is_valid_hash := false } := rfl

theorem initHashWriteOver_eq (H : NtHash) (d : Cursor) :
    initHashWriteOver H d =
      if d.start + d.k ≤ d.seq.length then
        { d with fhash := H.bf ((windowOf d.seq d.start (d.start + d.k)).map subChar),
                 rhash := H.br ((windowOf d.seq d.start (d.start + d.k)).map subChar),
                 chash := H.canon
                   (H.bf ((windowOf d.seq d.start (d.start + d.k)).map subChar))
                   (H.br ((windowOf d.seq d.start (d.start + d.k)).map subChar)),
                 c_outs := ([] : List Nat), is_valid_hash := true }
      else { d with c_outs := ([] : List Nat), is_valid_hash := false } := rfl

/-! ## The head-consume loops: unfolding and size bounds -/

theorem headConsumeSkipAux_irrel (k : Nat) (s2 : List Nat) : ∀ f1 : Nat, ∀ f2 c ind,
    s2.length ≤ ind + f1 → s2.length ≤ ind + f2 →
    headConsumeSkipAux k s2 f1 c ind = headConsumeSkipAux k s2 f2 c ind := by
  intro f1
  induction f1 with
  | zero =>
    intro f2 c ind h1 h2
    cases f2 with
    | zero => rfl
    | succ f2' =>
      rw [headConsumeSkipAux, headConsumeSkipAux, if_neg (by omega)]
  | succ f1' ih =>
    intro f2 c ind h1 h2
    cases f2 with
    | zero =>
      rw [headConsumeSkipAux, headConsumeSkipAux, if_neg (by omega)]
    | succ f2' =>
      rw [headConsumeSkipAux, headConsumeSkipAux]
      by_cases hc : c.length < k ∧ ind < s2.length
      · rw [if_pos hc, if_pos hc]
        by_cases ha : is_ACTG (s2.getD ind 0) = true
        · rw [if_pos ha, if_pos ha]
          exact ih f2' _ (ind + 1) (by omega) (by omega)
        · rw [if_neg ha, if_neg ha]
      · rw [if_neg hc, if_neg hc]

theorem headConsumeSkip_eq (k : Nat) (s2 : List Nat) (c : List Nat) (ind : Nat) :
    headConsumeSkip k s2 c ind =
      if c.length < k ∧ ind < s2.length then
        if is_ACTG (s2.getD ind 0) then
          headConsumeSkip k s2 (c ++ [s2.getD ind 0]) (ind + 1)
        else (c, ind, some ind)
      else (c, ind, none) := by
  show headConsumeSkipAux k s2 (s2.length + 1 - ind) c ind = _
  by_cases hi : ind ≤ s2.length
  · have hpos : s2.length + 1 - ind = (s2.length - ind) + 1 := by omega
    rw [hpos, headConsumeSkipAux]
    by_cases hc : c.length < k ∧ ind < s2.length
    · rw [if_pos hc, if_pos hc]
      by_cases ha : is_ACTG (s2.getD ind 0) = true
      · rw [if_pos ha, if_pos ha]
        exact headConsumeSkipAux_irrel k s2 (s2.length - ind) (s2.length + 1 - (ind + 1))
          _ (ind + 1) (by omega) (by omega)
      · rw [if_neg ha, if_neg ha]
    · rw [if_neg hc, if_neg hc]
  · have hc : ¬(c.length < k ∧ ind < s2.length) := by omega
    have h0 : s2.length + 1 - ind = 0 := by omega
    rw [h0, headConsumeSkipAux, if_neg hc]

theorem headConsumeWriteAux_irrel (k : Nat) (s2 : List Nat) : ∀ f1 : Nat, ∀ f2 c ind,
    s2.length ≤ ind + f1 → s2.length ≤ ind + f2 →
    headConsumeWriteAux k s2 f1 c ind = headConsumeWriteAux k s2 f2 c ind := by
  intro f1
  induction f1 with
  | zero =>
    intro f2 c ind h1 h2
    cases f2 with
    | zero => rfl
    | succ f2' =>
      rw [headConsumeWriteAux, headConsumeWriteAux, if_neg (by omega)]
  | succ f1' ih =>
    intro f2 c ind h1 h2
    cases f2 with
    | zero =>
      rw [headConsumeWriteAux, headConsumeWriteAux, if_neg (by omega)]
    | succ f2' =>
      rw [headConsumeWriteAux, headConsumeWriteAux]
      by_cases hc : c.length < k ∧ ind < s2.length
      · rw [if_pos hc, if_pos hc]
        exact ih f2' _ (ind + 1) (by omega) (by omega)
      · rw [if_neg hc, if_neg hc]

theorem headConsumeWrite_eq (k : Nat) (s2 : List Nat) (c : List Nat) (ind : Nat) :
    headConsumeWrite k s2 c ind =
      if c.length < k ∧ ind < s2.length then
        headConsumeWrite k s2 (c ++ [subChar (s2.getD ind 0)]) (ind + 1)
      else (c, ind) := by
  show headConsumeWriteAux k s2 (s2.length + 1 - ind) c ind = _
  by_cases hi : ind ≤ s2.length
  · have hpos : s2.length + 1 - ind = (s2.length - ind) + 1 := by omega
    rw [hpos, headConsumeWriteAux]
    by_cases hc : c.length < k ∧ ind < s2.length
    · rw [if_pos hc, if_pos hc]
      exact headConsumeWriteAux_irrel k s2 (s2.length - ind) (s2.length + 1 - (ind + 1))
        _ (ind + 1) (by omega) (by omega)
    · rw [if_neg hc, if_neg hc]
  · have hc : ¬(c.length < k ∧ ind < s2.length) := by omega
    have h0 : s2.length + 1 - ind = 0 := by omega
    rw [h0, headConsumeWriteAux, if_neg hc]

theorem tailWalkSkip_length (seq : List Nat) (start : Nat) : ∀ need ind,
    (tailWalkSkip seq start need ind).length ≤ need := by
  intro need
  induction need with
  | zero =>
    intro ind
    simp [tailWalkSkip]
  | succ need ih =>
    intro ind
    rw [tailWalkSkip]
    by_cases h1 : ind < start
    · rw [if_pos h1]
      simp
    · rw [if_neg h1]
      by_cases h2 : is_ACTG (seq.getD ind 0) = true
      · rw [if_pos h2]
        by_cases h3 : ind = 0
        · rw [if_pos h3]
          simp
        · rw [if_neg h3]
          have := ih (ind - 1)
          simp only [List.length_cons]
          omega
      · rw [if_neg h2]
        simp

theorem tailWalkWrite_length (seq : List Nat) (start : Nat) : ∀ need ind,
    (tailWalkWrite seq start need ind).length ≤ need := by
  intro need
  induction need with
  | zero =>
    intro ind
    simp [tailWalkWrite]
  | succ need ih =>
    intro ind
    rw [tailWalkWrite]
    by_cases h1 : ind < start
    · rw [if_pos h1]
      simp
    · rw [if_neg h1]
      by_cases h3 : ind = 0
      · rw [if_pos h3]
        simp
      · rw [if_neg h3]
        have := ih (ind - 1)
        simp only [List.length_cons]
        omega

theorem headConsumeSkip_length_le (k : Nat) (s2 : List Nat) : ∀ fuel c ind,
    s2.length ≤ ind + fuel →
    (headConsumeSkip k s2 c ind).1.length ≤ max c.length k := by
  intro fuel
  induction fuel with
  | zero =>
    intro c ind hb
    rw [headConsumeSkip_eq, if_neg (by omega)]
    simp
  | succ fuel ih =>
    intro c ind hb
    rw [headConsumeSkip_eq]
    by_cases hc : c.length < k ∧ ind < s2.length
    · rw [if_pos hc]
      by_cases ha : is_ACTG (s2.getD ind 0) = true
      · rw [if_pos ha]
        have := ih (c ++ [s2.getD ind 0]) (ind + 1) (by omega)
        simp only [List.length_append, List.length_cons, List.length_nil] at this
        omega
      · rw [if_neg ha]
        simp
    · rw [if_neg hc]
      simp

theorem headConsumeWrite_length_le (k : Nat) (s2 : List Nat) : ∀ fuel c ind,
    s2.length ≤ ind + fuel →
    (headConsumeWrite k s2 c ind).1.length ≤ max c.length k := by
  intro fuel
  induction fuel with
  | zero =>
    intro c ind hb
    rw [headConsumeWrite_eq, if_neg (by omega)]
    simp
  | succ fuel ih =>
    intro c ind hb
    rw [headConsumeWrite_eq]
    by_cases hc : c.length < k ∧ ind < s2.length
    · rw [if_pos hc]
      have := ih (c ++ [subChar (s2.getD ind 0)]) (ind + 1) (by omega)
      simp only [List.length_append, List.length_cons, List.length_nil] at this
      omega
    · rw [if_neg hc]
      simp

theorem appendPopped_length_le {d : Cursor} (hk : 1 ≤ d.k)
    (h : d.c_outs.length ≤ d.k) : (appendPopped d).length ≤ d.k - 1 := by
  unfold appendPopped
  by_cases hc : (d.start ≠ d.endi ∨ d.c_outs.length = d.k) ∧ d.c_outs ≠ []
  · rw [if_pos hc]
    have : d.c_outs.length ≠ 0 := by
      intro h0
      exact hc.2 (List.length_eq_zero.mp h0)
    simp only [List.length_tail]
    omega
  · rw [if_neg hc]
    rcases Decidable.em (d.c_outs = []) with he | he
    · rw [he]
      simp only [List.length_nil]
      omega
    · have h1 : ¬(d.start ≠ d.endi ∨ d.c_outs.length = d.k) := fun hx => hc ⟨hx, he⟩
      push_neg at h1
      omega

theorem appendCarrySkip_length_le {d : Cursor} (hk : 1 ≤ d.k)
    (h : d.c_outs.length ≤ d.k) : (appendCarrySkip d).length ≤ d.k - 1 := by
  unfold appendCarrySkip
  have h1 := appendPopped_length_le hk h
  have h2 := tailWalkSkip_length d.seq d.start (d.k - 1 - (appendPopped d).length)
    (appendInd0 d)
  simp only [List.length_append, List.length_reverse]
  omega

theorem appendCarryWrite_length_le {d : Cursor} (hk : 1 ≤ d.k)
    (h : d.c_outs.length ≤ d.k) : (appendCarryWrite d).length ≤ d.k - 1 := by
  unfold appendCarryWrite
  have h1 := appendPopped_length_le hk h
  have h2 := tailWalkWrite_length d.seq d.start (d.k - 1 - (appendPopped d).length)
    (appendInd0 d)
  simp only [List.length_append, List.length_reverse]
  omega

/-! ## Field lemmas and the reachable size bound -/

theorem initHashSkipOver_c_outs (H : NtHash) (d : Cursor) :
    (initHashSkipOver H d).c_outs = [] := by
  rw [initHashSkipOver_eq]
  split <;> rfl

theorem initHashSkipOver_k (H : NtHash) (d : Cursor) :
    (initHashSkipOver H d).k = d.k := by
  rw [initHashSkipOver_eq]
  split <;> rfl

theorem initHashWriteOver_c_outs (H : NtHash) (d : Cursor) :
    (initHashWriteOver H d).c_outs = [] := by
  rw [initHashWriteOver_eq]
  split <;> rfl

theorem initHashWriteOver_k (H : NtHash) (d : Cursor) :
    (initHashWriteOver H d).k = d.k := by
  rw [initHashWriteOver_eq]
  split <;> rfl

theorem initHash_c_outs (H : NtHash) (P : Policy) (d : Cursor) :
    (initHash H P d).c_outs = [] := by
  cases P
  · exact initHashWriteOver_c_outs H d
  · exact initHashSkipOver_c_outs H d

theorem initHash_k (H : NtHash) (P : Policy) (d : Cursor) :
    (initHash H P d).k = d.k := by
  cases P
  · exact initHashWriteOver_k H d
  · exact initHashSkipOver_k H d

theorem rollOne_skip (H : NtHash) (d : Cursor) :
    rollOne H .skipover d = rollOneSkipOver H d := rfl

theorem rollOne_write (H : NtHash) (d : Cursor) :
    rollOne H .writeover d = rollOneWriteOver H d := rfl

theorem appendSeq_skip_no_guard {H : NtHash} {d : Cursor} {s2 : List Nat}
    (h : d.seq.length ≤ d.endi) :
    appendSeq H .skipover d s2 = (none, appendBodySkip H d s2) := by
  show appendSeqSkipOver H d s2 = _
  rw [appendSeqSkipOver, if_neg (by omega)]

theorem appendSeq_write_no_guard {H : NtHash} {d : Cursor} {s2 : List Nat}
    (h : d.seq.length ≤ d.endi) :
    appendSeq H .writeover d s2 = (none, appendBodyWrite H d s2) := by
  show appendSeqWriteOver H d s2 = _
  rw [appendSeqWriteOver, if_neg (by omega)]

theorem appendBodySkip_k (H : NtHash) (d : Cursor) (s2 : List Nat) :
    (appendBodySkip H d s2).k = d.k := by
  unfold appendBodySkip
  split
  · exact initHashSkipOver_k H _
  · split
    · rfl
    · rfl

theorem appendBodyWrite_k (H : NtHash) (d : Cursor) (s2 : List Nat) :
    (appendBodyWrite H d s2).k = d.k := by
  unfold appendBodyWrite
  split
  split
  · rfl
  · rfl

theorem appendBodySkip_c_le (H : NtHash) (d : Cursor) (s2 : List Nat) (hk : 1 ≤ d.k)
    (h : d.c_outs.length ≤ d.k) :
    (appendBodySkip H d s2).c_outs.length ≤ d.k := by
  have hlen : (headConsumeSkip d.k s2 (appendCarrySkip d) 0).1.length ≤ d.k := by
    have h1 := headConsumeSkip_length_le d.k s2 s2.length (appendCarrySkip d) 0 (by omega)
    have h2 := appendCarrySkip_length_le hk h
    simp only [max_le_iff] at h1
    omega
  unfold appendBodySkip
  split
  · rw [initHashSkipOver_c_outs]
    simp
  · rename_i c3 ind heq
    rw [heq] at hlen
    split
    · exact hlen
    · exact hlen

theorem appendBodyWrite_c_le (H : NtHash) (d : Cursor) (s2 : List Nat) (hk : 1 ≤ d.k)
    (h : d.c_outs.length ≤ d.k) :
    (appendBodyWrite H d s2).c_outs.length ≤ d.k := by
  have hlen : (headConsumeWrite d.k s2 (appendCarryWrite d) 0).1.length ≤ d.k := by
    have h1 := headConsumeWrite_length_le d.k s2 s2.length (appendCarryWrite d) 0 (by omega)
    have h2 := appendCarryWrite_length_le hk h
    simp only [max_le_iff] at h1
    omega
  unfold appendBodyWrite
  split
  rename_i c3 ind heq
  rw [heq] at hlen
  split
  · exact hlen
  · exact hlen

theorem rollOne_k_c (H : NtHash) (P : Policy) (d : Cursor) :
    (rollOne H P d).2.k = d.k ∧
    ((rollOne H P d).2.c_outs.length ≤ d.c_outs.length ∨ (rollOne H P d).2.c_outs = []) := by
  by_cases hv : d.is_valid_hash = false
  · rw [rollOne_invalid hv]
    exact ⟨rfl, Or.inl (Nat.le_refl _)⟩
  · rw [Bool.not_eq_false] at hv
    by_cases he : d.seq.length ≤ d.endi
    · rw [rollOne_off_end hv he]
      exact ⟨rfl, Or.inl (Nat.le_refl _)⟩
    · rw [Nat.not_le] at he
      cases P
      · rw [rollOne_write]
        rcases hc : d.c_outs with _ | ⟨o, rest⟩
        · rw [rollWrite_nil hv he hc]
          exact ⟨rfl, Or.inr hc⟩
        · rw [rollWrite_cons hv he hc]
          refine ⟨rfl, Or.inl ?_⟩
          simp
      · rw [rollOne_skip]
        rcases hc : d.c_outs with _ | ⟨o, rest⟩
        · by_cases ha : is_ACTG (d.seq.getD d.endi 0) = true
          · rw [rollSkip_nil_good hv he hc ha]
            exact ⟨rfl, Or.inr hc⟩
          · rw [Bool.not_eq_true] at ha
            rw [rollSkip_nil_bad hv he hc ha]
            exact ⟨initHashSkipOver_k H _, Or.inr (initHashSkipOver_c_outs H _)⟩
        · by_cases ha : is_ACTG (d.seq.getD d.endi 0) = true
          · rw [rollSkip_cons_good hv he hc ha]
            refine ⟨rfl, Or.inl ?_⟩
            simp
          · rw [Bool.not_eq_true] at ha
            rw [rollSkip_cons_bad hv he hc ha]
            exact ⟨initHashSkipOver_k H _, Or.inr (initHashSkipOver_c_outs H _)⟩

/-- Basic invariant over every reachable state, both policies:
`k ≥ 4` and `|c_outs| ≤ k`. -/
theorem reach_basic {H : NtHash} {P : Policy} {V : List Nat} {d : Cursor}
    (h : Reach H P V d) : 4 ≤ d.k ∧ d.c_outs.length ≤ d.k := by
  induction h with
  | construct S k s mh d hok =>
    have hg : ¬(k < 4 ∨ S.length ≤ s ∨ 2 < mh) := by
      intro hg
      rw [construct, if_pos hg] at hok
      cases hok
    rw [construct, if_neg hg] at hok
    have hd : initHash H P
        { seq := S, offset := 0, start := s, endi := s + k, chash := 0, fhash := 0,
          rhash := 0, k := k, c_outs := [], minimized_h := mh,
          is_valid_hash := false } = d := by
      injection hok
    rw [← hd, initHash_k, initHash_c_outs]
    simp only [List.length_nil]
    refine ⟨?_, by omega⟩
    show 4 ≤ k
    omega
  | roll V d hr ih =>
    rcases rollOne_k_c H P d with ⟨hk, hc⟩
    rw [hk]
    refine ⟨ih.1, ?_⟩
    rcases hc with hc | hc
    · omega
    · rw [hc]
      simp only [List.length_nil]
      omega
  | append V d s2 hr hok ih =>
    cases P
    · rw [appendSeq_write_no_guard hok]
      rw [show ((none : Option CppExc), appendBodyWrite H d s2).2 = appendBodyWrite H d s2 from rfl]
      rw [appendBodyWrite_k]
      exact ⟨ih.1, appendBodyWrite_c_le H d s2 (by omega) ih.2⟩
    · rw [appendSeq_skip_no_guard hok]
      rw [show ((none : Option CppExc), appendBodySkip H d s2).2 = appendBodySkip H d s2 from rfl]
      rw [appendBodySkip_k]
      exact ⟨ih.1, appendBodySkip_c_le H d s2 (by omega) ih.2⟩
  | newseq V d s2 s hr hlt ih =>
    show 4 ≤ (newSeq H P d s2 s).2.k ∧ _
    rw [newSeq, if_neg (by omega)]
    show 4 ≤ (initHash H P _).k ∧ _
    rw [initHash_k, initHash_c_outs]
    simp only [List.length_nil]
    exact ⟨ih.1, by omega⟩

/-! ## Claim C7 (amended) -/

/-- C7 amended: in every reachable state `|c_outs| ≤ k` (not `k - 1`: the
counterexample shows `append_seq` can return with a full deque of `k`
characters after initialising the hash from it); construction and a
successful `new_seq` leave the carry empty, and any `roll_one` that
returns `true` leaves at most `k - 1` characters — a full deque can
persist only until the next successful roll or append consumes it. -/
theorem c_outs_bounded_by_k (H : NtHash) (P : Policy) (V : List Nat) (d : Cursor)
    (h : Reach H P V d) :
    d.c_outs.length ≤ d.k ∧
    ((rollOne H P d).1 = true → (rollOne H P d).2.c_outs.length ≤ d.k - 1) ∧
    (∀ S k s mh, construct H P S k s mh = .ok d → d.c_outs = []) ∧
    (∀ dPrev s2 s, (newSeq H P dPrev s2 s).1 = none → (newSeq H P dPrev s2 s).2 = d →
      d.c_outs = []) := by
  rcases reach_basic h with ⟨hk, hc⟩
  refine ⟨hc, ?_, ?_, ?_⟩
  · intro htrue
    by_cases hv : d.is_valid_hash = false
    · rw [rollOne_invalid hv] at htrue
      cases htrue
    · rw [Bool.not_eq_false] at hv
      by_cases he : d.seq.length ≤ d.endi
      · rw [rollOne_off_end hv he] at htrue
        cases htrue
      · rw [Nat.not_le] at he
        cases P
        · rw [rollOne_write]
          rcases hcc : d.c_outs with _ | ⟨o, rest⟩
          · rw [rollWrite_nil hv he hcc]
            simp [hcc]
          · rw [rollWrite_cons hv he hcc]
            rw [hcc] at hc
            simp only [List.length_cons] at hc
            simp only [List.length_cons]
            omega
        · rw [rollOne_skip]
          rcases hcc : d.c_outs with _ | ⟨o, rest⟩
          · by_cases ha : is_ACTG (d.seq.getD d.endi 0) = true
            · rw [rollSkip_nil_good hv he hcc ha]
              simp [hcc]
            · rw [Bool.not_eq_true] at ha
              rw [rollSkip_nil_bad hv he hcc ha, initHashSkipOver_c_outs]
              simp
          · by_cases ha : is_ACTG (d.seq.getD d.endi 0) = true
            · rw [rollSkip_cons_good hv he hcc ha]
              rw [hcc] at hc
              simp only [List.length_cons] at hc
              simp only [List.length_cons]
              omega
            · rw [Bool.not_eq_true] at ha
              rw [rollSkip_cons_bad hv he hcc ha, initHashSkipOver_c_outs]
              simp
  · intro S k s mh hok
    have hg : ¬(k < 4 ∨ S.length ≤ s ∨ 2 < mh) := by
      intro hg
      rw [construct, if_pos hg] at hok
      cases hok
    rw [construct, if_neg hg] at hok
    have hd : initHash H P
        { seq := S, offset := 0, start := s, endi := s + k, chash := 0, fhash := 0,
          rhash := 0, k := k, c_outs := [], minimized_h := mh,
          is_valid_hash := false } = d := by
      injection hok
    rw [← hd, initHash_c_outs]
  · intro dPrev s2 s hn hd
    rw [newSeq] at hn hd
    by_cases hlt : s2.length ≤ s
    · rw [if_pos hlt] at hn
      cases hn
    · rw [if_neg hlt] at hd
      rw [← hd]
      exact initHash_c_outs H P _

theorem c_outs_bounded_by_k_witness :
    (exampleCarryFull H0).2.c_outs.length ≤ (exampleCarryFull H0).2.k := by
  have hreach : Reach H0 .skipover ([65, 65, 65, 65, 65] ++ [65, 65, 65])
      (exampleCarryFull H0).2 := by
    have h0 : Reach H0 .skipover [65, 65, 65, 65, 65]
        (cursorOf (construct H0 .skipover [65, 65, 65, 65, 65] 4 0 0)) :=
      Reach.construct [65, 65, 65, 65, 65] 4 0 0 _ rfl
    have h1 := Reach.roll _ _ h0
    have h2 := Reach.roll _ _ h1
    exact Reach.append _ _ [65, 65, 65] h2 (by decide)
  exact (c_outs_bounded_by_k H0 .skipover _ _ hreach).1

/-- C5 counterexample: the constructor accepts `minimized_h = -1`, which is
not one of the three defined `MinimizedHashType` variants (0, 1, 2),
because the guard `(int)minimized_h > 2` misses negative values; the claim
asserts construction must throw for it. -/
theorem construct_negative_minimized_h_accepted :
    (construct H0 .skipover [65] 4 0 (-1)).isOk = true ∧
    ¬((-1 : Int) = 0 ∨ (-1 : Int) = 1 ∨ (-1 : Int) = 2) := by
  decide

/-- C5 amended: construction throws `BadConstruction` exactly when
`k < 4`, or `start ≥ len`, or the integer value of `minimized_h` is
greater than 2 (out-of-range negative values are not rejected); otherwise
the cursor is initialised at the first position `t ≥ start` at which a
window of `k` bytes fits (and, under SKIPOVER, is free of non-ACTG
bytes), the state being invalid exactly when no such position exists. -/
theorem construct_error_iff_and_first_valid (H : NtHash) (P : Policy) (S : List Nat)
    (k : Nat) (s : Nat) (mh : Int) :
    (construct H P S k s mh = .error .badConstruction ↔
      (k < 4 ∨ S.length ≤ s ∨ 2 < mh)) ∧
    ∀ d, construct H P S k s mh = .ok d →
      (d.is_valid_hash = true ↔ ∃ t, s ≤ t ∧ goodWindow P S k t) ∧
      (d.is_valid_hash = true →
        s ≤ d.start ∧ d.endi = d.start + k ∧ goodWindow P S k d.start ∧
        ∀ t, s ≤ t → t < d.start → ¬goodWindow P S k t) := by
  by_cases hg : k < 4 ∨ S.length ≤ s ∨ 2 < mh
  · constructor
    · rw [construct, if_pos hg]
      exact ⟨fun _ => hg, fun _ => rfl⟩
    · intro d hd
      rw [construct, if_pos hg] at hd
      cases hd
  · have hcon : construct H P S k s mh = .ok (initHash H P
        { seq := S, offset := 0, start := s, endi := s + k,
          chash := 0, fhash := 0, rhash := 0, k := k, c_outs := [],
          minimized_h := mh, is_valid_hash := false }) := by
      rw [construct, if_neg hg]
    refine ⟨?_, ?_⟩
    · rw [hcon]
      exact ⟨fun h => Except.noConfusion h, fun h => absurd h hg⟩
    · intro d hd
      rw [hcon] at hd
      have hd' : initHash H P
          { seq := S, offset := 0, start := s, endi := s + k,
            chash := 0, fhash := 0, rhash := 0, k := k, c_outs := [],
            minimized_h := mh, is_valid_hash := false } = d := by
        injection hd
      cases P
      · -- writeover
        rw [initHash, initHashWriteOver_eq] at hd'
        dsimp only at hd'
        by_cases hfit : s + k ≤ S.length
        · rw [if_pos hfit] at hd'
          subst hd'
          dsimp only
          constructor
          · constructor
            · intro _
              exact ⟨s, Nat.le_refl s, hfit, fun hc => by cases hc⟩
            · intro _
              rfl
          · intro _
            refine ⟨Nat.le_refl s, rfl, ⟨hfit, fun hc => by cases hc⟩, ?_⟩
            intro t ht1 ht2
            omega
        · rw [if_neg hfit] at hd'
          subst hd'
          dsimp only
          constructor
          · constructor
            · intro hc
              cases hc
            · rintro ⟨t, ht, hgood⟩
              have h1 := hgood.1
              exact absurd (by omega : s + k ≤ S.length) hfit
          · intro hc
            cases hc
      · -- skipover
        rw [initHash, initHashSkipOver_eq] at hd'
        dsimp only at hd'
        rcases findKmer_spec S k s with ⟨hs1, hs2, hs3⟩
        rcases hfound : (findKmer S k s).1 with _ | _
        · rw [hfound, if_neg (by simp)] at hd'
          subst hd'
          dsimp only
          rcases hs3 hfound with ⟨g1, g2⟩
          constructor
          · constructor
            · intro hc
              cases hc
            · rintro ⟨t, ht, hgood⟩
              exact absurd ⟨hgood.1, hgood.2 rfl⟩ (g2 t ht)
          · intro hc
            cases hc
        · rw [hfound, if_pos rfl] at hd'
          subst hd'
          dsimp only
          rcases hs2 hfound with ⟨g1, g2, g3⟩
          constructor
          · constructor
            · intro _
              exact ⟨(findKmer S k s).2, hs1, g1, fun _ => g2⟩
            · intro _
              rfl
          · intro _
            refine ⟨hs1, rfl, ⟨g1, fun _ => g2⟩, ?_⟩
            intro t ht1 ht2 hgood
            exact g3 t ht1 ht2 ⟨hgood.1, hgood.2 rfl⟩

theorem construct_error_iff_and_first_valid_witness :
    (construct H0 .skipover [78, 65, 65, 65, 65] 4 0 0 = .error .badConstruction ↔
      (4 < 4 ∨ (5 : Nat) ≤ 0 ∨ (2 : Int) < 0)) ∧
    ∀ d, construct H0 .skipover [78, 65, 65, 65, 65] 4 0 0 = .ok d →
      (d.is_valid_hash = true ↔ ∃ t, 0 ≤ t ∧ goodWindow .skipover [78, 65, 65, 65, 65] 4 t) := by
  have h := construct_error_iff_and_first_valid H0 .skipover [78, 65, 65, 65, 65] 4 0 0
  exact ⟨by simpa using h.1, fun d hd => (h.2 d hd).1⟩

/-! ## Claim C1 -/

/-- C1: append equivalence fails when one of the appended parts is empty.
For the split `"ACGTGT" = "AC" ∥ "" ∥ "GTGT"` under WRITEOVER (k = 4,
start 0), the single run emits positions `[0, 1, 2]`, while the
construct-roll-append protocol emits `[2^64 - 1, 0, 1, 2]`: appending the
empty sequence leaves `len = 0`, so the next `append_seq` computes
`ind = len - 1 = 2^64 - 1` and reads `this->seq[ind]` out of bounds
(rendered as byte 0 here), pushing a spurious `'A'` into the carry; the
first reported position then underflows `size_t` regardless of what the
out-of-bounds read returns.  The streams differ, refuting the claimed
equivalence for this split. -/
theorem append_empty_part_breaks_equivalence :
    Option.map (List.map Prod.fst) (runSingle H0 .writeover [65, 67, 71, 84, 71, 84] 4 0 0) =
      some [0, 1, 2] ∧
    Option.map (List.map Prod.fst)
        (runAppendTwice H0 .writeover [65, 67] [] [71, 84, 71, 84] 4 0 0) =
      some [U64 - 1, 0, 1, 2] ∧
    runSingle H0 .writeover [65, 67, 71, 84, 71, 84] 4 0 0 ≠
      runAppendTwice H0 .writeover [65, 67] [] [71, 84, 71, 84] 4 0 0 := by
  decide

/-! ## Claim C2 -/

set_option maxRecDepth 8000 in
set_option maxHeartbeats 1000000 in
/-- C2: position coherence fails at a reachable state.  After
`Digester("NAAAA", 5, 4, 0)` (SKIPOVER) — valid at the k-mer `AAAA`,
position 1 — a call `append_seq("", 0)` returns with `is_valid_hash`
still true, the carry `AAA`, and `get_pos() = 2`, while `fhash`/`rhash`
still hold the hashes of the k-mer at position 1 (for every hash family
`H`); no k-mer of length 4 even exists at position 2 of the virtual
concatenation `"NAAAA"`, whose length is 5.  The invariant claimed
(valid ⇒ the k-mer at `P` hashes to the stored values) is therefore
violated. -/
theorem append_seq_empty_leaves_stale_valid (H : NtHash) :
    (exampleStale H).is_valid_hash = true ∧
    (exampleStale H).offset = 5 ∧
    (exampleStale H).start = 0 ∧
    (exampleStale H).c_outs = [65, 65, 65] ∧
    (exampleStale H).k = 4 ∧
    getPos (exampleStale H) = 2 ∧
    (exampleStale H).fhash = H.bf (windowOf [78, 65, 65, 65, 65] 1 5) ∧
    (exampleStale H).rhash = H.br (windowOf [78, 65, 65, 65, 65] 1 5) ∧
    2 + 4 > ([78, 65, 65, 65, 65] : List Nat).length := by
  have h1 : (exampleStale H).offset = 5 := rfl
  have h2 : (exampleStale H).start = 0 := rfl
  have h3 : (exampleStale H).c_outs = [65, 65, 65] := rfl
  have h6 : getPos (exampleStale H) = 2 := by
    rw [getPos, h1, h2, h3]
    decide
  exact ⟨rfl, h1, h2, h3, rfl, h6, rfl, rfl, by decide⟩

/-! ## Claim C7 -/

/-- C7 counterexample: a state visible outside `append_seq` with
`|c_outs| = k`.  Constructing on `"AAAAA"` (k = 4), rolling twice (the
second call runs off the end) and calling `append_seq("AAA", 3)` returns
without throwing and leaves four characters in `c_outs` — the deque was
filled to exactly `k` and the hash initialised from it (lines 397-422 of
`digester.hpp`) — contradicting the claimed bound `|c_outs| ≤ k - 1`
after every `append_seq` call returns. -/
theorem c_outs_reaches_k_after_append :
    (exampleCarryFull H0).1 = none ∧
    (exampleCarryFull H0).2.c_outs.length = 4 ∧
    (exampleCarryFull H0).2.k = 4 ∧
    (exampleCarryFull H0).2.is_valid_hash = true := by
  decide

/-! ## Claim C10 -/

/-- C10: `new_seq` with `start ≥ len` throws `BadConstruction`, but only
after the slice, length, `start`, `end` have been overwritten, `offset`
reset to 0 and the validity flag cleared; the carry, the hashes and `k`
are the only fields that survive. -/
theorem new_seq_throw_after_overwrite (H : NtHash) (P : Policy) (d : Cursor)
    (s2 : List Nat) (s : Nat) (h : s2.length ≤ s) :
    newSeq H P d s2 s =
      (some .badConstruction,
       { d with seq := s2, offset := 0, start := s, endi := s + d.k,
                is_valid_hash := false }) := by
  unfold newSeq
  rw [if_pos h]

theorem new_seq_throw_after_overwrite_witness :
    newSeq H0 .skipover
        { seq := [65, 65, 65, 65], offset := 0, start := 0, endi := 4, chash := 7,
          fhash := 8, rhash := 9, k := 4, c_outs := [67], minimized_h := 0,
          is_valid_hash := true } [65, 65] 5 =
      (some .badConstruction,
       { seq := [65, 65], offset := 0, start := 5, endi := 9, chash := 7,
         fhash := 8, rhash := 9, k := 4, c_outs := [67], minimized_h := 0,
         is_valid_hash := false }) :=
  new_seq_throw_after_overwrite H0 .skipover
    { seq := [65, 65, 65, 65], offset := 0, start := 0, endi := 4, chash := 7,
      fhash := 8, rhash := 9, k := 4, c_outs := [67], minimized_h := 0,
      is_valid_hash := true } [65, 65] 5 (by decide)

/-! ## Claim C3: WRITEOVER on S behaves as SKIPOVER on the substituted S -/

theorem subChar_ACTG (b : Nat) : is_ACTG (subChar b) = true := by
  unfold subChar
  by_cases h : is_ACTG b = true
  · rw [if_pos h]
    exact h
  · rw [if_neg h]
    decide

theorem getD_map_subChar {S : List Nat} {i : Nat} (h : i < S.length) :
    (S.map subChar).getD i 0 = subChar (S.getD i 0) := by
  rw [List.getD_eq_getElem?_getD, List.getD_eq_getElem?_getD, List.getElem?_map,
      List.getElem?_eq_getElem h]
  rfl

theorem firstBadRel_map_none (S : List Nat) : ∀ n : Nat, ∀ i : Nat, i + n ≤ S.length →
    firstBadRel (S.map subChar) i n = none := by
  intro n
  induction n with
  | zero =>
    intro i _
    rfl
  | succ n ih =>
    intro i hb
    rw [firstBadRel, if_pos (by rw [getD_map_subChar (by omega)]; exact subChar_ACTG _),
        ih (i + 1) (by omega)]
    rfl

theorem windowOf_map (S : List Nat) (f : Nat → Nat) (a b : Nat) :
    windowOf (S.map f) a b = (windowOf S a b).map f := by
  unfold windowOf
  rw [List.map_take, List.map_drop]

theorem findKmer_map_subChar (S : List Nat) (k s : Nat) :
    findKmer (S.map subChar) k s =
      if s + k ≤ S.length then (true, s) else (false, s) := by
  rw [findKmer_eq]
  by_cases hfit : s + k ≤ S.length
  · rw [if_pos (by rw [List.length_map]; exact hfit), if_pos hfit,
        firstBadRel_map_none S k s (by omega)]
  · rw [if_neg (by rw [List.length_map]; exact hfit), if_neg hfit]

theorem init_mirror (H : NtHash) (d : Cursor) (hend : d.endi = d.start + d.k)
    (hk : 1 ≤ d.k) :
    initHashSkipOver H (mirrorOf d) = mirrorOf (initHashWriteOver H d) ∧
    WOk (initHashWriteOver H d) := by
  by_cases hfit : d.start + d.k ≤ d.seq.length
  · have hfk : findKmer (d.seq.map subChar) d.k d.start = (true, d.start) := by
      rw [findKmer_map_subChar, if_pos hfit]
    have hw : initHashWriteOver H d =
        { d with fhash := H.bf ((windowOf d.seq d.start (d.start + d.k)).map subChar),
                 rhash := H.br ((windowOf d.seq d.start (d.start + d.k)).map subChar),
                 chash := H.canon
                   (H.bf ((windowOf d.seq d.start (d.start + d.k)).map subChar))
                   (H.br ((windowOf d.seq d.start (d.start + d.k)).map subChar)),
                 c_outs := ([] : List Nat), is_valid_hash := true } := by
      rw [initHashWriteOver_eq, if_pos hfit]
    have hs : initHashSkipOver H (mirrorOf d) =
        { d with seq := d.seq.map subChar, endi := d.start + d.k,
                 fhash := H.bf (windowOf (d.seq.map subChar) d.start (d.start + d.k)),
                 rhash := H.br (windowOf (d.seq.map subChar) d.start (d.start + d.k)),
                 chash := H.canon
                   (H.bf (windowOf (d.seq.map subChar) d.start (d.start + d.k)))
                   (H.br (windowOf (d.seq.map subChar) d.start (d.start + d.k))),
                 c_outs := ([] : List Nat), is_valid_hash := true } := by
      rw [initHashSkipOver_eq]
      simp only [mirrorOf]
      rw [hfk]
      rfl
    constructor
    · rw [hs, hw]
      simp only [mirrorOf]
      rw [windowOf_map, hend]
    · rw [hw]
      refine ⟨rfl, hk, fun _ => ⟨?_, ?_⟩⟩
      · show d.endi = d.start + d.k
        exact hend
      · show d.endi ≤ d.seq.length
        omega
  · have hfk : findKmer (d.seq.map subChar) d.k d.start = (false, d.start) := by
      rw [findKmer_map_subChar, if_neg hfit]
    have hw : initHashWriteOver H d =
        { d with c_outs := ([] : List Nat), is_valid_hash := false } := by
      rw [initHashWriteOver_eq, if_neg hfit]
    have hs : initHashSkipOver H (mirrorOf d) =
        { d with seq := d.seq.map subChar, endi := d.start + d.k,
                 c_outs := ([] : List Nat), is_valid_hash := false } := by
      rw [initHashSkipOver_eq]
      simp only [mirrorOf]
      rw [hfk]
      rfl
    constructor
    · rw [hs, hw]
      simp only [mirrorOf]
      rw [hend]
    · rw [hw]
      refine ⟨rfl, hk, ?_⟩
      intro hcon
      exact absurd hcon (by simp)

theorem roll_mirror (H : NtHash) (d : Cursor) (hW : WOk d) :
    (rollOneSkipOver H (mirrorOf d)).1 = (rollOneWriteOver H d).1 ∧
    (rollOneSkipOver H (mirrorOf d)).2 = mirrorOf (rollOneWriteOver H d).2 ∧
    WOk (rollOneWriteOver H d).2 := by
  obtain ⟨hc, hk, hval⟩ := hW
  by_cases hv : d.is_valid_hash = true
  · by_cases he : d.seq.length ≤ d.endi
    · have h1 : rollOneWriteOver H d = (false, { d with is_valid_hash := false }) := by
        rw [← rollOne_write, rollOne_off_end hv he]
      have h2 : rollOneSkipOver H (mirrorOf d) =
          (false, { mirrorOf d with is_valid_hash := false }) := by
        rw [← rollOne_skip]
        refine rollOne_off_end (d := mirrorOf d) hv ?_
        show (d.seq.map subChar).length ≤ d.endi
        rw [List.length_map]
        exact he
      rw [h1, h2]
      refine ⟨rfl, rfl, hc, hk, ?_⟩
      intro hcon
      exact absurd hcon (by simp)
    · rw [Nat.not_le] at he
      have hse : d.start + d.k = d.endi ∧ d.endi ≤ d.seq.length := by
        rcases hval hv with ⟨g1, g2⟩
        exact ⟨g1.symm, g2⟩
      have hstart : d.start < d.seq.length := by omega
      have he' : (mirrorOf d).endi < (mirrorOf d).seq.length := by
        show d.endi < (d.seq.map subChar).length
        rw [List.length_map]
        exact he
      have hgood : is_ACTG ((mirrorOf d).seq.getD (mirrorOf d).endi 0) = true := by
        show is_ACTG ((d.seq.map subChar).getD d.endi 0) = true
        rw [getD_map_subChar he]
        exact subChar_ACTG _
      have h2 := rollSkip_nil_good (H := H) (d := mirrorOf d) hv he' hc hgood
      have h1 := rollWrite_nil (H := H) hv he hc
      rw [h1, h2]
      refine ⟨rfl, ?_, ?_⟩
      · show ({ mirrorOf d with
          fhash := H.nf (mirrorOf d).fhash (mirrorOf d).k ((mirrorOf d).seq.getD (mirrorOf d).start 0) ((mirrorOf d).seq.getD (mirrorOf d).endi 0),
          rhash := H.nr (mirrorOf d).rhash (mirrorOf d).k ((mirrorOf d).seq.getD (mirrorOf d).start 0) ((mirrorOf d).seq.getD (mirrorOf d).endi 0),
          start := (mirrorOf d).start + 1, endi := (mirrorOf d).endi + 1,
          chash := H.canon
            (H.nf (mirrorOf d).fhash (mirrorOf d).k ((mirrorOf d).seq.getD (mirrorOf d).start 0) ((mirrorOf d).seq.getD (mirrorOf d).endi 0))
            (H.nr (mirrorOf d).rhash (mirrorOf d).k ((mirrorOf d).seq.getD (mirrorOf d).start 0) ((mirrorOf d).seq.getD (mirrorOf d).endi 0)) } : Cursor) =
          mirrorOf _
        simp only [mirrorOf]
        rw [getD_map_subChar he, getD_map_subChar hstart]
      · refine ⟨hc, hk, ?_⟩
        intro _
        constructor
        · show d.endi + 1 = d.start + 1 + d.k
          omega
        · show d.endi + 1 ≤ d.seq.length
          omega
  · rw [Bool.not_eq_true] at hv
    have h1 : rollOneWriteOver H d = (false, d) := by
      rw [← rollOne_write, rollOne_invalid hv]
    have h2 : rollOneSkipOver H (mirrorOf d) = (false, mirrorOf d) := by
      rw [← rollOne_skip]
      exact rollOne_invalid (d := mirrorOf d) hv
    rw [h1, h2]
    exact ⟨rfl, rfl, hc, hk, hval⟩

theorem obsOf_mirror (d : Cursor) : obsOf (mirrorOf d) = obsOf d := rfl

theorem rollAllObs_mirror (H : NtHash) : ∀ fuel : Nat, ∀ d : Cursor, WOk d →
    (rollAllObs H .skipover fuel (mirrorOf d)).1 =
      (rollAllObs H .writeover fuel d).1 := by
  intro fuel
  induction fuel with
  | zero =>
    intro d _
    rfl
  | succ fuel ih =>
    intro d hW
    obtain ⟨hflag, hstate, hWnext⟩ := roll_mirror H d hW
    simp only [rollAllObs, rollOne_skip, rollOne_write]
    rw [hflag, hstate]
    by_cases hb : (rollOneWriteOver H d).1 = true
    · rw [if_pos hb, if_pos hb]
      simp only [obsOf_mirror]
      rw [ih (rollOneWriteOver H d).2 hWnext]
    · rw [if_neg hb, if_neg hb]

theorem construct_mirror (H : NtHash) (S : List Nat) (k s : Nat) (mh : Int) :
    construct H .skipover (S.map subChar) k s mh =
      Except.map mirrorOf (construct H .writeover S k s mh) ∧
    ∀ dd, construct H .writeover S k s mh = .ok dd → WOk dd := by
  by_cases hg : k < 4 ∨ S.length ≤ s ∨ 2 < mh
  · have hg' : k < 4 ∨ (S.map subChar).length ≤ s ∨ 2 < mh := by
      rw [List.length_map]
      exact hg
    rw [construct, construct, if_pos hg, if_pos hg']
    exact ⟨rfl, fun dd hdd => by cases hdd⟩
  · have hg' : ¬(k < 4 ∨ (S.map subChar).length ≤ s ∨ 2 < mh) := by
      rw [List.length_map]
      exact hg
    rw [construct, construct, if_neg hg, if_neg hg']
    have hk4 : 4 ≤ k := Nat.le_of_not_lt (fun hx => hg (Or.inl hx))
    have hmm := init_mirror H
      { seq := S, offset := 0, start := s, endi := s + k, chash := 0, fhash := 0,
        rhash := 0, k := k, c_outs := [], minimized_h := mh, is_valid_hash := false }
      rfl (by show (1 : Nat) ≤ k; omega)
    constructor
    · show Except.ok (initHashSkipOver H
          { seq := S.map subChar, offset := 0, start := s, endi := s + k, chash := 0,
            fhash := 0, rhash := 0, k := k, c_outs := [], minimized_h := mh,
            is_valid_hash := false }) =
        Except.ok (mirrorOf (initHashWriteOver H
          { seq := S, offset := 0, start := s, endi := s + k, chash := 0, fhash := 0,
            rhash := 0, k := k, c_outs := [], minimized_h := mh,
            is_valid_hash := false }))
      rw [← hmm.1]
      rfl
    · intro dd hdd
      have : initHashWriteOver H
          { seq := S, offset := 0, start := s, endi := s + k, chash := 0, fhash := 0,
            rhash := 0, k := k, c_outs := [], minimized_h := mh,
            is_valid_hash := false } = dd := by
        injection hdd
      rw [← this]
      exact hmm.2

/-- C3: for every sequence `S`, `k`, `start` and minimized-hash kind, and
every hash family, the observable stream (initial tuple if valid, then
one tuple per successful roll) of a WRITEOVER digester on `S` equals that
of a SKIPOVER digester on `S` with every non-ACTG byte replaced by `'A'`.
The substituted sequence contains no non-ACTG bytes, so the claim's
proviso (no skipped regions in it) holds vacuously, and the two
constructors also throw on exactly the same inputs. -/
theorem writeover_equals_skipover_on_substituted (H : NtHash) (S : List Nat)
    (k s : Nat) (mh : Int) :
    runSingle H .writeover S k s mh =
      runSingle H .skipover (S.map subChar) k s mh := by
  obtain ⟨hc, hW⟩ := construct_mirror H S k s mh
  unfold runSingle
  rcases hcw : construct H .writeover S k s mh with e | dd
  · rw [hcw] at hc
    rw [hc]
    rfl
  · rw [hcw] at hc
    rw [hc]
    show _ = some ((if (mirrorOf dd).is_valid_hash then [obsOf (mirrorOf dd)] else []) ++
      (rollAllObs H .skipover ((S.map subChar).length + k + 2) (mirrorOf dd)).1)
    rw [show (mirrorOf dd).is_valid_hash = dd.is_valid_hash from rfl, obsOf_mirror,
        List.length_map, rollAllObs_mirror H (S.length + k + 2) dd (hW dd hcw)]

/-! ## Claim C4: the SKIPOVER master invariant -/

theorem getD_nil_zero (ind : Nat) : (([] : List Nat)).getD ind 0 = 0 := by
  cases ind <;> rfl

theorem allACTG_singleton (x : Nat) : allACTG [x] = is_ACTG x := by
  simp [allACTG]

theorem tailWalkSkip_nil_seq (start : Nat) : ∀ need ind,
    tailWalkSkip ([] : List Nat) start need ind = [] := by
  intro need ind
  cases need with
  | zero => rfl
  | succ need =>
    rw [tailWalkSkip]
    by_cases h1 : ind < start
    · rw [if_pos h1]
    · rw [if_neg h1]
      have hb : is_ACTG (([] : List Nat).getD ind 0) = false := by
        rw [getD_nil_zero]
        decide
      rw [if_neg (by rw [hb]; exact Bool.false_ne_true)]

theorem tailWalkSkip_suffix (seq : List Nat) (start : Nat) : ∀ need ind,
    ind < seq.length →
    ∃ m, m ≤ ind + 1 ∧
      (tailWalkSkip seq start need ind).reverse = windowOf seq m (ind + 1) ∧
      allACTG (windowOf seq m (ind + 1)) = true := by
  intro need
  induction need with
  | zero =>
    intro ind _
    refine ⟨ind + 1, Nat.le_refl _, ?_, ?_⟩
    · rw [windowOf_nil_of_le (Nat.le_refl _)]
      rfl
    · rw [windowOf_nil_of_le (Nat.le_refl _)]
      rfl
  | succ need ih =>
    intro ind h
    rw [tailWalkSkip]
    by_cases h1 : ind < start
    · rw [if_pos h1]
      refine ⟨ind + 1, Nat.le_refl _, ?_, ?_⟩
      · rw [windowOf_nil_of_le (Nat.le_refl _)]
        rfl
      · rw [windowOf_nil_of_le (Nat.le_refl _)]
        rfl
    · rw [if_neg h1]
      by_cases ha : is_ACTG (seq.getD ind 0) = true
      · rw [if_pos ha]
        by_cases h0 : ind = 0
        · rw [if_pos h0]
          subst h0
          refine ⟨0, by omega, ?_, ?_⟩
          · rw [windowOf_cons (by omega) h, windowOf_nil_of_le (by omega)]
            rfl
          · rw [windowOf_cons (by omega) h, windowOf_nil_of_le (by omega)]
            rw [show ([seq.getD 0 0] : List Nat) = [seq.getD 0 0] ++ [] from rfl,
              allACTG_append, allACTG_singleton, ha]
            rfl
        · rw [if_neg h0]
          rcases ih (ind - 1) (by omega) with ⟨m, hm1, hm2, hm3⟩
          have hsub : ind - 1 + 1 = ind := by omega
          rw [hsub] at hm2 hm3
          refine ⟨m, by omega, ?_, ?_⟩
          · rw [List.reverse_cons, hm2, windowOf_snoc (by omega) h]
          · rw [windowOf_snoc (by omega) h, allACTG_append, hm3, allACTG_singleton, ha]
            rfl
      · rw [if_neg ha]
        refine ⟨ind + 1, Nat.le_refl _, ?_, ?_⟩
        · rw [windowOf_nil_of_le (Nat.le_refl _)]
          rfl
        · rw [windowOf_nil_of_le (Nat.le_refl _)]
          rfl

theorem tailWalkSkip_count (seq : List Nat) (start : Nat) : ∀ need ind,
    ind < seq.length → start ≤ ind + 1 → need ≤ ind + 1 - start →
    (∀ j, start ≤ j → j ≤ ind → is_ACTG (seq.getD j 0) = true) →
    (tailWalkSkip seq start need ind).reverse =
      windowOf seq (ind + 1 - need) (ind + 1) := by
  intro need
  induction need with
  | zero =>
    intro ind _ _ _ _
    rw [windowOf_nil_of_le (by omega)]
    rfl
  | succ need ih =>
    intro ind h hs hn hA
    rw [tailWalkSkip]
    have h1 : ¬ind < start := by omega
    rw [if_neg h1]
    have ha : is_ACTG (seq.getD ind 0) = true := hA ind (by omega) (Nat.le_refl _)
    rw [if_pos ha]
    by_cases h0 : ind = 0
    · subst h0
      have hn0 : need = 0 := by omega
      have hst : start = 0 := by omega
      rw [hn0]
      rw [windowOf_cons (by omega) h, windowOf_nil_of_le (by omega)]
      rfl
    · rw [if_neg h0]
      have hrec := ih (ind - 1) (by omega) (by omega) (by omega)
        (fun j hj1 hj2 => hA j hj1 (by omega))
      have hsub : ind - 1 + 1 = ind := by omega
      rw [hsub] at hrec
      rw [List.reverse_cons, hrec, windowOf_snoc (by omega) h]
      have he1 : ind - need = ind + 1 - (need + 1) := by omega
      rw [he1]

theorem headConsumeSkip_spec (k : Nat) (s2 : List Nat) : ∀ fuel c ind,
    s2.length ≤ ind + fuel → ind ≤ s2.length → c.length ≤ k →
    (headConsumeSkip k s2 c ind).1 =
        c ++ windowOf s2 ind (headConsumeSkip k s2 c ind).2.1 ∧
    ind ≤ (headConsumeSkip k s2 c ind).2.1 ∧
    (headConsumeSkip k s2 c ind).2.1 ≤ s2.length ∧
    allACTG (windowOf s2 ind (headConsumeSkip k s2 c ind).2.1) = true ∧
    (∀ b, (headConsumeSkip k s2 c ind).2.2 = some b →
      b = (headConsumeSkip k s2 c ind).2.1 ∧
      (headConsumeSkip k s2 c ind).2.1 < s2.length ∧
      is_ACTG (s2.getD b 0) = false ∧
      (headConsumeSkip k s2 c ind).1.length < k) ∧
    ((headConsumeSkip k s2 c ind).2.2 = none →
      (headConsumeSkip k s2 c ind).1.length = k ∨
      ((headConsumeSkip k s2 c ind).1.length < k ∧
       (headConsumeSkip k s2 c ind).2.1 = s2.length)) := by
  intro fuel
  induction fuel with
  | zero =>
    intro c ind hb hi hck
    have hcond : ¬(c.length < k ∧ ind < s2.length) := by omega
    rw [headConsumeSkip_eq, if_neg hcond]
    refine ⟨?_, Nat.le_refl _, hi, ?_, ?_, ?_⟩
    · rw [windowOf_nil_of_le (Nat.le_refl _), List.append_nil]
    · rw [windowOf_nil_of_le (Nat.le_refl _)]
      rfl
    · intro b hbad
      cases hbad
    · intro _
      rcases Nat.lt_or_ge c.length k with hlt | hge
      · exact Or.inr ⟨hlt, show ind = s2.length by omega⟩
      · exact Or.inl (show c.length = k by omega)
  | succ fuel ih =>
    intro c ind hb hi hck
    rw [headConsumeSkip_eq]
    by_cases hcond : c.length < k ∧ ind < s2.length
    · rw [if_pos hcond]
      by_cases ha : is_ACTG (s2.getD ind 0) = true
      · rw [if_pos ha]
        rcases ih (c ++ [s2.getD ind 0]) (ind + 1) (by omega) (by omega)
          (by rw [List.length_append]; simp; omega) with ⟨g1, g2, g3, g4, g5, g6⟩
        have hw : windowOf s2 ind (headConsumeSkip k s2 (c ++ [s2.getD ind 0]) (ind + 1)).2.1 =
            s2.getD ind 0 ::
              windowOf s2 (ind + 1) (headConsumeSkip k s2 (c ++ [s2.getD ind 0]) (ind + 1)).2.1 :=
          windowOf_cons (by omega) hcond.2
        refine ⟨?_, Nat.le_trans (Nat.le_succ ind) g2, g3, ?_, g5, g6⟩
        · rw [g1, hw]
          rw [List.append_assoc]
          rfl
        · rw [hw]
          rw [show (s2.getD ind 0 ::
                windowOf s2 (ind + 1)
                  (headConsumeSkip k s2 (c ++ [s2.getD ind 0]) (ind + 1)).2.1) =
              [s2.getD ind 0] ++
                windowOf s2 (ind + 1)
                  (headConsumeSkip k s2 (c ++ [s2.getD ind 0]) (ind + 1)).2.1 from rfl]
          rw [allACTG_append, allACTG_singleton, ha, g4]
          rfl
      · rw [if_neg ha]
        refine ⟨?_, Nat.le_refl _, Nat.le_of_lt hcond.2, ?_, ?_, ?_⟩
        · rw [windowOf_nil_of_le (Nat.le_refl _), List.append_nil]
        · rw [windowOf_nil_of_le (Nat.le_refl _)]
          rfl
        · intro b hbad
          have hbi : b = ind := by
            injection hbad with hx
            exact hx.symm
          subst hbi
          exact ⟨rfl, hcond.2, by revert ha; cases is_ACTG (s2.getD b 0) <;> simp,
            hcond.1⟩
        · intro hcon
          cases hcon
    · rw [if_neg hcond]
      refine ⟨?_, Nat.le_refl _, hi, ?_, ?_, ?_⟩
      · rw [windowOf_nil_of_le (Nat.le_refl _), List.append_nil]
      · rw [windowOf_nil_of_le (Nat.le_refl _)]
        rfl
      · intro b hbad
        cases hbad
      · intro _
        rcases Nat.lt_or_ge c.length k with hlt | hge
        · have hni : ¬ind < s2.length := fun hx => hcond ⟨hlt, hx⟩
          exact Or.inr ⟨hlt, show ind = s2.length by omega⟩
        · exact Or.inl (show c.length = k by omega)

theorem appendBodySkip_some (H : NtHash) (d : Cursor) (s2 c3 : List Nat) (ind b : Nat)
    (hh : headConsumeSkip d.k s2 (appendCarrySkip d) 0 = (c3, ind, some b)) :
    appendBodySkip H d s2 = initHashSkipOver H
      { d with seq := s2, offset := d.offset + d.seq.length, start := b + 1,
               endi := b + 1 + d.k, c_outs := ([] : List Nat) } := by
  unfold appendBodySkip
  rw [hh]

theorem appendBodySkip_none (H : NtHash) (d : Cursor) (s2 c3 : List Nat) (ind : Nat)
    (hh : headConsumeSkip d.k s2 (appendCarrySkip d) 0 = (c3, ind, none)) :
    appendBodySkip H d s2 =
      if c3.length = d.k then
        { d with seq := s2, offset := d.offset + d.seq.length, start := ind,
                 endi := ind, c_outs := c3, fhash := H.bf c3, rhash := H.br c3,
                 chash := H.canon (H.bf c3) (H.br c3), is_valid_hash := true }
      else
        { d with seq := s2, offset := d.offset + d.seq.length, start := ind,
                 endi := ind, c_outs := c3 } := by
  unfold appendBodySkip
  rw [hh]

theorem inv_init (H : NtHash) (V : List Nat) (d : Cursor)
    (hseq : d.seq = V.drop d.offset) (hoff : d.offset ≤ V.length) (hk : 4 ≤ d.k) :
    InvSkip V (initHashSkipOver H d) := by
  rw [initHashSkipOver_eq]
  rcases findKmer_spec d.seq d.k d.start with ⟨hs1, hs2, hs3⟩
  by_cases hf : (findKmer d.seq d.k d.start).1 = true
  · rw [if_pos hf]
    rcases hs2 hf with ⟨g1, g2, _⟩
    refine ⟨hseq, hoff, hk, by simp, ?_, ?_, ?_⟩
    · intro hne
      exact absurd rfl hne
    · intro _
      refine ⟨g2, Or.inl ⟨?_, g1⟩⟩
      show (findKmer d.seq d.k d.start).2 + d.k =
        (findKmer d.seq d.k d.start).2 + (d.k - List.length ([] : List Nat))
      simp
    · intro _ hne
      exact absurd rfl hne
  · rw [if_neg hf]
    refine ⟨hseq, hoff, hk, by simp, ?_, ?_, ?_⟩
    · intro hne
      exact absurd rfl hne
    · intro hv
      exact absurd hv (by simp)
    · intro _ hne
      exact absurd rfl hne

theorem appendCarrySkip_CB (V : List Nat) (d : Cursor)
    (ih : InvSkip V d) (hend : d.seq.length ≤ d.endi) :
    appendCarrySkip d =
      windowOf V (V.length - (appendCarrySkip d).length) V.length ∧
    allACTG (appendCarrySkip d) = true ∧
    (appendCarrySkip d).length ≤ V.length ∧
    (appendCarrySkip d).length ≤ d.k - 1 ∧
    (d.is_valid_hash = true → (appendCarrySkip d).length = d.k - 1) := by
  rcases ih with ⟨hseq, hoff, hk, hclen, hcarry, hvalid, hinvalid⟩
  have hlen : d.seq.length = V.length - d.offset := by
    rw [hseq]
    simp
  have hB : d.offset + d.seq.length = V.length := by omega
  have hk1 : 1 ≤ d.k := by omega
  have hkle := appendCarrySkip_length_le hk1 hclen
  rcases hco : d.c_outs with _ | ⟨o, rest⟩
  · -- empty carry: no pop, pure tail walk
    have hpop : appendPopped d = [] := by
      unfold appendPopped
      rw [if_neg]
      · exact hco
      · intro hx
        exact hx.2 hco
    have hcar : appendCarrySkip d =
        (tailWalkSkip d.seq d.start (d.k - 1) (appendInd0 d)).reverse := by
      unfold appendCarrySkip
      rw [hpop]
      simp
    have hc0l : d.c_outs.length = 0 := by
      rw [hco]
      rfl
    by_cases hl0 : d.seq.length = 0
    · have hseqnil : d.seq = [] := List.length_eq_zero.mp hl0
      have hwalk : appendCarrySkip d = [] := by
        rw [hcar, hseqnil, tailWalkSkip_nil_seq]
        rfl
      rw [hwalk]
      refine ⟨?_, rfl, by simp, by simp, ?_⟩
      · rw [windowOf_nil_of_le (by simp)]
      · intro hv
        rcases hvalid hv with ⟨hw, hsh⟩
        rcases hsh with ⟨h1, h2⟩ | ⟨h1, h2, h3, h4⟩
        · have : False := by omega
          exact this.elim
        · have : False := by omega
          exact this.elim
    · have hind : appendInd0 d = d.seq.length - 1 := by
        unfold appendInd0
        rw [if_neg hl0]
      by_cases hv : d.is_valid_hash = true
      · rcases hvalid hv with ⟨hw, hsh⟩
        rcases hsh with ⟨h1, h2⟩ | ⟨h1, h2, h3, h4⟩
        · have hel : d.endi = d.seq.length := by omega
          have hsk : d.seq.length = d.start + d.k := by omega
          have hreg : ∀ j, d.start ≤ j → j ≤ d.seq.length - 1 →
              is_ACTG (d.seq.getD j 0) = true := by
            intro j hj1 hj2
            have hwl : allACTG (windowOf d.seq d.start d.seq.length) = true := by
              rw [← hel]
              exact hw
            exact (allACTG_iff_getD (Nat.le_refl _)).mp hwl j hj1 (by omega)
          have hcount := tailWalkSkip_count d.seq d.start (d.k - 1)
            (d.seq.length - 1) (by omega) (by omega) (by omega) hreg
          have hl1 : d.seq.length - 1 + 1 = d.seq.length := by omega
          rw [hl1] at hcount
          have hfin : appendCarrySkip d =
              windowOf d.seq (d.seq.length - (d.k - 1)) d.seq.length := by
            rw [hcar, hind]
            exact hcount
          have hlenw : (appendCarrySkip d).length = d.k - 1 := by
            rw [hfin, windowOf_length (by omega) (Nat.le_refl _)]
            omega
          have hfinV : appendCarrySkip d =
              windowOf V (V.length - (d.k - 1)) V.length := by
            rw [hfin]
            rw [show windowOf d.seq (d.seq.length - (d.k - 1)) d.seq.length =
                windowOf (V.drop d.offset) (d.seq.length - (d.k - 1)) d.seq.length
              from by rw [← hseq]]
            rw [windowOf_of_drop]
            have q1 : d.offset + (d.seq.length - (d.k - 1)) =
                V.length - (d.k - 1) := by omega
            rw [q1, hB]
          refine ⟨?_, ?_, ?_, hkle, fun _ => hlenw⟩
          · rw [hlenw, hfinV]
          · rw [hfin, allACTG_iff_getD (Nat.le_refl _)]
            intro i hi1 hi2
            exact hreg i (by omega) (by omega)
          · rw [hlenw]
            omega
        · exact absurd h1 hl0
      · rcases tailWalkSkip_suffix d.seq d.start (d.k - 1) (d.seq.length - 1)
          (by omega) with ⟨m, hm1, hm2, hm3⟩
        have hl1 : d.seq.length - 1 + 1 = d.seq.length := by omega
        rw [hl1] at hm1 hm2 hm3
        have hfin : appendCarrySkip d = windowOf d.seq m d.seq.length := by
          rw [hcar, hind]
          exact hm2
        have hwin : (appendCarrySkip d).length = d.seq.length - m := by
          rw [hfin, windowOf_length hm1 (Nat.le_refl _)]
        have hfinV : appendCarrySkip d =
            windowOf V (V.length - (appendCarrySkip d).length) V.length := by
          rw [hwin, hfin]
          rw [show windowOf d.seq m d.seq.length =
              windowOf (V.drop d.offset) m d.seq.length from by rw [← hseq]]
          rw [windowOf_of_drop]
          have q1 : d.offset + m = V.length - (d.seq.length - m) := by omega
          rw [q1, hB]
        refine ⟨hfinV, ?_, ?_, hkle, ?_⟩
        · rw [hfin]
          exact hm3
        · rw [hwin]
          omega
        · intro hvv
          exact absurd hvv hv
  · -- non-empty carry
    have hcne : d.c_outs ≠ [] := by
      rw [hco]
      exact List.cons_ne_nil o rest
    have hlc : 1 ≤ d.c_outs.length := by
      rw [hco]
      simp
    rcases hcarry hcne with ⟨b1, b2, bcoh, bactg⟩
    have hconsW : windowOf V (d.offset + d.start - d.c_outs.length)
          (d.offset + d.start) =
        V.getD (d.offset + d.start - d.c_outs.length) 0 ::
          windowOf V (d.offset + d.start - d.c_outs.length + 1)
            (d.offset + d.start) :=
      windowOf_cons (by omega) (by omega)
    have htail : d.c_outs.tail =
        windowOf V (d.offset + d.start - d.c_outs.length + 1)
          (d.offset + d.start) := by
      conv_lhs => rw [bcoh, hconsW]
      rfl
    have htailA : allACTG d.c_outs.tail = true := by
      rw [hco] at bactg
      rw [hco]
      simp only [allACTG, List.all_cons, Bool.and_eq_true] at bactg
      exact bactg.2
    have htlen : d.c_outs.tail.length = d.c_outs.length - 1 := by
      rw [hco]
      rfl
    have hE : (d.c_outs.length = d.k ∧ d.start = d.endi ∧
          d.endi = d.seq.length) ∨
        (d.c_outs.length < d.k ∧ d.start = d.endi ∧ d.endi = d.seq.length ∧
          (d.is_valid_hash = true → d.c_outs.length = d.k - 1)) ∨
        (d.c_outs.length < d.k ∧ d.endi = d.start + (d.k - d.c_outs.length) ∧
          d.endi = d.seq.length ∧ d.start < d.endi ∧
          allACTG (windowOf d.seq d.start d.seq.length) = true) := by
      by_cases hv : d.is_valid_hash = true
      · rcases hvalid hv with ⟨hw, hsh⟩
        rcases hsh with ⟨h1, h2⟩ | ⟨h1, h2, h3, h4⟩
        · have hel : d.endi = d.seq.length := by omega
          rcases Nat.lt_or_ge d.c_outs.length d.k with hsk | hsk
          · refine Or.inr (Or.inr ⟨hsk, h1, hel, by omega, ?_⟩)
            rw [← hel]
            exact hw
          · exact Or.inl ⟨by omega, by omega, hel⟩
        · exact Or.inr (Or.inl ⟨by omega, by omega, by omega, fun _ => h4⟩)
      · have hvf : d.is_valid_hash = false := by
          cases hx : d.is_valid_hash
          · rfl
          · exact absurd hx hv
        rcases hinvalid hvf hcne with ⟨i1, i2, i3, i4⟩
        rcases i3 with i3 | i3
        · rcases Nat.lt_or_ge d.c_outs.length d.k with hsk | hsk
          · exact Or.inr (Or.inl ⟨hsk, i3, i1, fun hvv => absurd hvv hv⟩)
          · exact Or.inl ⟨by omega, i3, i1⟩
        · rcases Nat.lt_or_ge d.c_outs.length d.k with hsk | hsk
          · rcases Nat.lt_or_ge d.start d.endi with hse | hse
            · exact Or.inr (Or.inr ⟨hsk, i3, i1, hse, i4⟩)
            · exact Or.inr (Or.inl ⟨hsk, by omega, i1, fun hvv => absurd hvv hv⟩)
          · exact Or.inl ⟨by omega, by omega, i1⟩
    rcases hE with ⟨e1, e2, e3⟩ | ⟨e1, e2, e3, e4⟩ | ⟨e1, e2, e3, e4, e5⟩
    · -- full deque at the boundary: pop only
      have hpop : appendPopped d = d.c_outs.tail := by
        unfold appendPopped
        rw [if_pos ⟨Or.inr e1, hcne⟩]
      have hneed : d.k - 1 - (appendPopped d).length = 0 := by
        rw [hpop, htlen]
        omega
      have hcar : appendCarrySkip d = d.c_outs.tail := by
        unfold appendCarrySkip
        rw [hneed, hpop]
        rw [show tailWalkSkip d.seq d.start 0 (appendInd0 d) = [] from rfl]
        simp
      have hAB : d.offset + d.start = V.length := by omega
      have hcl : (appendCarrySkip d).length = d.k - 1 := by
        rw [hcar, htlen]
        omega
      refine ⟨?_, ?_, ?_, hkle, fun _ => hcl⟩
      · rw [hcl, hcar, htail]
        have q1 : d.offset + d.start - d.c_outs.length + 1 =
            V.length - (d.k - 1) := by omega
        rw [q1, hAB]
      · rw [hcar]
        exact htailA
      · rw [hcl]
        omega
    · -- no pop, empty walk region: the carry is untouched
      have hpop : appendPopped d = d.c_outs := by
        unfold appendPopped
        rw [if_neg]
        intro hx
        rcases hx.1 with hx1 | hx1
        · exact hx1 e2
        · omega
      have hwalk0 : (tailWalkSkip d.seq d.start
          (d.k - 1 - (appendPopped d).length) (appendInd0 d)).reverse =
          ([] : List Nat) := by
        by_cases hl0 : d.seq.length = 0
        · rw [List.length_eq_zero.mp hl0, tailWalkSkip_nil_seq]
          rfl
        · have hind : appendInd0 d = d.seq.length - 1 := by
            unfold appendInd0
            rw [if_neg hl0]
          rw [hind]
          by_cases hz : d.k - 1 - (appendPopped d).length = 0
          · rw [hz]
            rfl
          · rcases Nat.exists_eq_succ_of_ne_zero hz with ⟨n, hn⟩
            rw [hn, tailWalkSkip, if_pos (by omega)]
            rfl
      have hcar : appendCarrySkip d = d.c_outs := by
        unfold appendCarrySkip
        rw [hwalk0, hpop, List.append_nil]
      have hAB : d.offset + d.start = V.length := by omega
      refine ⟨?_, ?_, ?_, hkle, ?_⟩
      · rw [hcar, ← hAB]
        exact bcoh
      · rw [hcar]
        exact bactg
      · rw [hcar]
        omega
      · intro hvv
        rw [hcar]
        exact e4 hvv
    · -- pop, then the walk collects exactly the all-ACTG suffix
      have hpop : appendPopped d = d.c_outs.tail := by
        unfold appendPopped
        rw [if_pos ⟨Or.inl (by omega), hcne⟩]
      have hplen : (appendPopped d).length = d.c_outs.length - 1 := by
        rw [hpop, htlen]
      have hneed : d.k - 1 - (appendPopped d).length =
          d.k - d.c_outs.length := by
        rw [hplen]
        omega
      have hl0 : d.seq.length ≠ 0 := by omega
      have hind : appendInd0 d = d.seq.length - 1 := by
        unfold appendInd0
        rw [if_neg hl0]
      have hreg : ∀ j, d.start ≤ j → j ≤ d.seq.length - 1 →
          is_ACTG (d.seq.getD j 0) = true := by
        intro j hj1 hj2
        exact (allACTG_iff_getD (Nat.le_refl _)).mp e5 j hj1 (by omega)
      have hcount := tailWalkSkip_count d.seq d.start (d.k - d.c_outs.length)
        (d.seq.length - 1) (by omega) (by omega) (by omega) hreg
      have hl1 : d.seq.length - 1 + 1 = d.seq.length := by omega
      rw [hl1] at hcount
      have hstw : d.seq.length - (d.k - d.c_outs.length) = d.start := by omega
      rw [hstw] at hcount
      have hcar : appendCarrySkip d =
          d.c_outs.tail ++ windowOf d.seq d.start d.seq.length := by
        unfold appendCarrySkip
        rw [hneed, hind, hcount, hpop]
      have hwinlen : (windowOf d.seq d.start d.seq.length).length =
          d.k - d.c_outs.length := by
        rw [windowOf_length (by omega) (Nat.le_refl _)]
        omega
      have hcl : (appendCarrySkip d).length = d.k - 1 := by
        rw [hcar, List.length_append, htlen, hwinlen]
        omega
      have hwinV : windowOf d.seq d.start d.seq.length =
          windowOf V (d.offset + d.start) V.length := by
        rw [show windowOf d.seq d.start d.seq.length =
            windowOf (V.drop d.offset) d.start d.seq.length from by rw [← hseq]]
        rw [windowOf_of_drop, hB]
      have hfinV : appendCarrySkip d =
          windowOf V (d.offset + d.start - d.c_outs.length + 1) V.length := by
        rw [hcar, htail, hwinV]
        exact windowOf_concat (by omega) b2
      refine ⟨?_, ?_, ?_, hkle, fun _ => hcl⟩
      · rw [hcl, hfinV]
        have q1 : V.length - (d.k - 1) =
            d.offset + d.start - d.c_outs.length + 1 := by omega
        rw [q1]
      · rw [hcar, allACTG_append, htailA, e5]
        rfl
      · rw [hcl]
        omega

theorem window_tail_shift {V c : List Nat} {A : Nat}
    (hlc : 1 ≤ c.length) (b1 : c.length ≤ A) (b2 : A ≤ V.length)
    (bcoh : c = windowOf V (A - c.length) A) :
    c.tail = windowOf V (A - c.length + 1) A := by
  have hconsW : windowOf V (A - c.length) A =
      V.getD (A - c.length) 0 :: windowOf V (A - c.length + 1) A :=
    windowOf_cons (by omega) (by omega)
  conv_lhs => rw [bcoh, hconsW]
  rfl

theorem allACTG_tail {c : List Nat} (h : allACTG c = true) :
    allACTG c.tail = true := by
  cases c with
  | nil => rfl
  | cons x xs =>
    simp only [allACTG, List.all_cons, Bool.and_eq_true] at h
    exact h.2

theorem headConsumeSkip_spec_comp (k : Nat) (s2 c c3 : List Nat) (ind : Nat)
    (bad : Option Nat) (hck : c.length ≤ k)
    (hh : headConsumeSkip k s2 c 0 = (c3, ind, bad)) :
    c3 = c ++ windowOf s2 0 ind ∧ ind ≤ s2.length ∧
    allACTG (windowOf s2 0 ind) = true ∧
    (∀ b, bad = some b → b = ind ∧ ind < s2.length ∧
      is_ACTG (s2.getD b 0) = false ∧ c3.length < k) ∧
    (bad = none → c3.length = k ∨ (c3.length < k ∧ ind = s2.length)) := by
  rcases headConsumeSkip_spec k s2 s2.length c 0 (by omega) (by omega) hck
    with ⟨g1, g2, g3, g4, g5, g6⟩
  rw [hh] at g1 g3 g4 g5 g6
  exact ⟨g1, g3, g4, g5, g6⟩

theorem reach_inv_skip (H : NtHash) (V : List Nat) (d : Cursor)
    (h : Reach H .skipover V d) : InvSkip V d := by
  induction h with
  | construct S k s mh d0 hc =>
    unfold construct at hc
    by_cases hg : k < 4 ∨ S.length ≤ s ∨ 2 < mh
    · rw [if_pos hg] at hc
      cases hc
    · rw [if_neg hg] at hc
      push_neg at hg
      injection hc with hc
      subst hc
      exact inv_init H S _ (by simp) (by simp) (show 4 ≤ k by omega)
  | newseq V0 d0 s2 s hr hs ih =>
    rw [newSeq, if_neg (by omega)]
    exact inv_init H s2 _ (by simp) (by simp) ih.hk
  | roll V0 d0 hr ih =>
    show InvSkip V0 (rollOneSkipOver H d0).2
    by_cases hv : d0.is_valid_hash = true
    · by_cases he0 : d0.seq.length ≤ d0.endi
      · have heq : rollOneSkipOver H d0 =
            (false, { d0 with is_valid_hash := false }) := by
          unfold rollOneSkipOver
          rw [if_neg (by simp [hv]), if_pos he0]
        rw [heq]
        rcases ih with ⟨hseq, hoff, hk, hclen, hcarry, hvalid, hinvalid⟩
        refine ⟨hseq, hoff, hk, hclen, hcarry, ?_, ?_⟩
        · intro hx
          exact absurd hx (by simp)
        · intro _ hne
          rcases hvalid hv with ⟨hw, hsh⟩
          rcases hsh with ⟨h1, h2⟩ | ⟨h1, h2, h3, h4⟩
          · have hel : d0.endi = d0.seq.length := by omega
            refine ⟨hel, (show d0.start ≤ d0.seq.length by omega), Or.inr h1, ?_⟩
            show allACTG (windowOf d0.seq d0.start d0.seq.length) = true
            rw [← hel]
            exact hw
          · refine ⟨(show d0.endi = d0.seq.length by omega),
              (show d0.start ≤ d0.seq.length by omega),
              Or.inl (show d0.start = d0.endi by omega), ?_⟩
            show allACTG (windowOf d0.seq d0.start d0.seq.length) = true
            rw [windowOf_nil_of_le (by omega)]
            rfl
      · push_neg at he0
        rcases hcc : d0.c_outs with _ | ⟨o, rest⟩
        · by_cases ha : is_ACTG (d0.seq.getD d0.endi 0) = true
          · rw [rollSkip_nil_good hv he0 hcc ha]
            rcases ih with ⟨hseq, hoff, hk, hclen, hcarry, hvalid, hinvalid⟩
            rcases hvalid hv with ⟨hw, hsh⟩
            have hc0 : d0.c_outs.length = 0 := by
              rw [hcc]
              rfl
            rcases hsh with ⟨h1, h2⟩ | ⟨h1, h2, h3, h4⟩
            · refine ⟨hseq, hoff, hk, hclen, ?_, ?_, ?_⟩
              · intro hne
                exact absurd hcc hne
              · intro _
                constructor
                · show allACTG (windowOf d0.seq (d0.start + 1) (d0.endi + 1)) = true
                  rw [allACTG_iff_getD (show d0.endi + 1 ≤ d0.seq.length by omega)]
                  intro i hi1 hi2
                  rcases Nat.lt_or_ge i d0.endi with hie | hie
                  · exact (allACTG_iff_getD
                      (show d0.endi ≤ d0.seq.length by omega)).mp hw i (by omega) hie
                  · have hieq : i = d0.endi := by omega
                    rw [hieq]
                    exact ha
                · exact Or.inl ⟨(show d0.endi + 1 =
                      d0.start + 1 + (d0.k - d0.c_outs.length) by omega),
                    (show d0.endi + 1 ≤ d0.seq.length by omega)⟩
              · intro hx
                have hx2 : d0.is_valid_hash = false := hx
                rw [hv] at hx2
                cases hx2
            · exact absurd he0 (by omega)
          · have haf : is_ACTG (d0.seq.getD d0.endi 0) = false := by
              cases hx : is_ACTG (d0.seq.getD d0.endi 0)
              · rfl
              · exact absurd hx ha
            rw [rollSkip_nil_bad hv he0 hcc haf]
            exact inv_init H V0 _ ih.hseq ih.hoff ih.hk
        · by_cases ha : is_ACTG (d0.seq.getD d0.endi 0) = true
          · rw [rollSkip_cons_good hv he0 hcc ha]
            rcases ih with ⟨hseq, hoff, hk, hclen, hcarry, hvalid, hinvalid⟩
            rcases hvalid hv with ⟨hw, hsh⟩
            have hcl : d0.c_outs.length = rest.length + 1 := by
              rw [hcc]
              rfl
            rcases hsh with ⟨h1, h2⟩ | ⟨h1, h2, h3, h4⟩
            · refine ⟨hseq, hoff, hk, ?_, ?_, ?_, ?_⟩
              · show rest.length ≤ d0.k
                omega
              · intro hne
                have hne0 : d0.c_outs ≠ [] := by
                  rw [hcc]
                  exact List.cons_ne_nil o rest
                rcases hcarry hne0 with ⟨b1, b2, bcoh, bactg⟩
                have htl := window_tail_shift (by omega) b1 b2 bcoh
                have hteq : d0.c_outs.tail = rest := by
                  rw [hcc]
                  rfl
                rw [hteq] at htl
                refine ⟨(show rest.length ≤ d0.offset + d0.start by omega), b2, ?_, ?_⟩
                · show rest = windowOf V0 (d0.offset + d0.start - rest.length)
                    (d0.offset + d0.start)
                  rw [show d0.offset + d0.start - rest.length =
                      d0.offset + d0.start - d0.c_outs.length + 1 from by omega]
                  exact htl
                · show allACTG rest = true
                  rw [← hteq]
                  exact allACTG_tail bactg
              · intro _
                constructor
                · show allACTG (windowOf d0.seq d0.start (d0.endi + 1)) = true
                  rw [windowOf_snoc (show d0.start ≤ d0.endi by omega) he0,
                    allACTG_append, hw, allACTG_singleton, ha]
                  rfl
                · exact Or.inl ⟨(show d0.endi + 1 =
                      d0.start + (d0.k - rest.length) by omega),
                    (show d0.endi + 1 ≤ d0.seq.length by omega)⟩
              · intro hx
                have hx2 : d0.is_valid_hash = false := hx
                rw [hv] at hx2
                cases hx2
            · exact absurd he0 (by omega)
          · have haf : is_ACTG (d0.seq.getD d0.endi 0) = false := by
              cases hx : is_ACTG (d0.seq.getD d0.endi 0)
              · rfl
              · exact absurd hx ha
            rw [rollSkip_cons_bad hv he0 hcc haf]
            exact inv_init H V0 _ ih.hseq ih.hoff ih.hk
    · have hvb : d0.is_valid_hash = false := by
        cases hx : d0.is_valid_hash
        · rfl
        · exact absurd hx hv
      rw [show rollOneSkipOver H d0 = (false, d0) from by
        unfold rollOneSkipOver
        rw [if_pos hvb]]
      exact ih
  | append V0 d0 s2 hr hend ih =>
    show InvSkip (V0 ++ s2) (appendSeqSkipOver H d0 s2).2
    have hng : ¬(d0.endi < d0.seq.length) := by omega
    rw [show (appendSeqSkipOver H d0 s2).2 = appendBodySkip H d0 s2 from by
      unfold appendSeqSkipOver
      rw [if_neg hng]]
    have hk4 := ih.hk
    have hB : d0.offset + d0.seq.length = V0.length := by
      have h1 := ih.hseq
      have h2 := ih.hoff
      have h3 : d0.seq.length = V0.length - d0.offset := by
        rw [h1]
        simp
      omega
    have hs2drop : s2 = (V0 ++ s2).drop (d0.offset + d0.seq.length) := by
      rw [hB]
      exact (List.drop_left V0 s2).symm
    rcases appendCarrySkip_CB V0 d0 ih hend with ⟨cb1, cb2, cb3, cb4, cb5⟩
    have hck : (appendCarrySkip d0).length ≤ d0.k := by omega
    rcases hh : headConsumeSkip d0.k s2 (appendCarrySkip d0) 0 with ⟨c3, ind, bad⟩
    rcases headConsumeSkip_spec_comp d0.k s2 (appendCarrySkip d0) c3 ind bad hck hh
      with ⟨g1, g3, g4, g5, g6⟩
    rcases bad with _ | b
    · rw [appendBodySkip_none H d0 s2 c3 ind hh]
      have hc3 : c3.length = (appendCarrySkip d0).length + ind := by
        rw [g1, List.length_append, windowOf_length (by omega) g3]
        omega
      have hc3win : c3 = windowOf (V0 ++ s2)
          (V0.length - (appendCarrySkip d0).length) (V0.length + ind) := by
        have p1 : appendCarrySkip d0 = windowOf (V0 ++ s2)
            (V0.length - (appendCarrySkip d0).length) V0.length :=
          cb1.trans ( windowOf_prefix (Nat.le_refl _)).symm
        have p2 : windowOf s2 0 ind =
            windowOf (V0 ++ s2) V0.length (V0.length + ind) := by
          conv_lhs => rw [show s2 = (V0 ++ s2).drop V0.length from
            (List.drop_left V0 s2).symm]
          rw [windowOf_of_drop, Nat.add_zero]
        rw [g1]
        conv_lhs => rw [p1, p2]
        exact windowOf_concat (by omega) (by omega)
      have hlenW : (V0 ++ s2).length = V0.length + s2.length :=
        List.length_append V0 s2
      by_cases hfull : c3.length = d0.k
      · rw [if_pos hfull]
        refine ⟨?_, ?_, ?_, ?_, ?_, ?_, ?_⟩
        · show s2 = (V0 ++ s2).drop (d0.offset + d0.seq.length)
          exact hs2drop
        · show d0.offset + d0.seq.length ≤ (V0 ++ s2).length
          rw [hlenW]
          omega
        · show 4 ≤ d0.k
          exact hk4
        · show c3.length ≤ d0.k
          omega
        · intro _
          refine ⟨(show c3.length ≤ d0.offset + d0.seq.length + ind by omega),
            ?_, ?_, ?_⟩
          · show d0.offset + d0.seq.length + ind ≤ (V0 ++ s2).length
            rw [hlenW]
            omega
          · show c3 = windowOf (V0 ++ s2)
              (d0.offset + d0.seq.length + ind - c3.length)
              (d0.offset + d0.seq.length + ind)
            conv_lhs => rw [hc3win]
            have q1 : V0.length - (appendCarrySkip d0).length =
                d0.offset + d0.seq.length + ind - c3.length := by omega
            have q2 : V0.length + ind = d0.offset + d0.seq.length + ind := by
              omega
            rw [q1, q2]
          · show allACTG c3 = true
            rw [g1, allACTG_append, cb2, g4]
            rfl
        · intro _
          constructor
          · show allACTG (windowOf s2 ind ind) = true
            rw [windowOf_nil_of_le (Nat.le_refl _)]
            rfl
          · exact Or.inl ⟨(show ind = ind + (d0.k - c3.length) by omega), g3⟩
        · intro hx
          exact Bool.noConfusion hx
      · rw [if_neg hfull]
        rcases g6 rfl with hfk | ⟨hlt, hil⟩
        · exact absurd hfk hfull
        · have hc3win2 : c3 = windowOf (V0 ++ s2)
              (d0.offset + d0.seq.length + ind - c3.length)
              (d0.offset + d0.seq.length + ind) := by
            conv_lhs => rw [hc3win]
            have q1 : V0.length - (appendCarrySkip d0).length =
                d0.offset + d0.seq.length + ind - c3.length := by omega
            have q2 : V0.length + ind = d0.offset + d0.seq.length + ind := by
              omega
            rw [q1, q2]
          refine ⟨?_, ?_, ?_, ?_, ?_, ?_, ?_⟩
          · show s2 = (V0 ++ s2).drop (d0.offset + d0.seq.length)
            exact hs2drop
          · show d0.offset + d0.seq.length ≤ (V0 ++ s2).length
            rw [List.length_append]
            omega
          · show 4 ≤ d0.k
            exact hk4
          · show c3.length ≤ d0.k
            omega
          · intro hne
            refine ⟨(show c3.length ≤ d0.offset + d0.seq.length + ind by omega),
              ?_, hc3win2, ?_⟩
            · show d0.offset + d0.seq.length + ind ≤ (V0 ++ s2).length
              rw [List.length_append]
              omega
            · show allACTG c3 = true
              rw [g1, allACTG_append, cb2, g4]
              rfl
          · intro hvv
            have hvv0 : d0.is_valid_hash = true := hvv
            have hc2l := cb5 hvv0
            have hind0 : ind = 0 := by omega
            constructor
            · show allACTG (windowOf s2 ind ind) = true
              rw [windowOf_nil_of_le (Nat.le_refl _)]
              rfl
            · exact Or.inr ⟨(show s2.length = 0 by omega), hind0, hind0,
                (show c3.length = d0.k - 1 by omega)⟩
          · intro _ hne
            refine ⟨hil, g3, Or.inl rfl, ?_⟩
            show allACTG (windowOf s2 ind s2.length) = true
            rw [← hil, windowOf_nil_of_le (Nat.le_refl _)]
            rfl
    · rw [appendBodySkip_some H d0 s2 c3 ind b hh]
      refine inv_init H (V0 ++ s2) _ ?_ ?_ ?_
      · show s2 = (V0 ++ s2).drop (d0.offset + d0.seq.length)
        exact hs2drop
      · show d0.offset + d0.seq.length ≤ (V0 ++ s2).length
        rw [List.length_append]
        omega
      · show 4 ≤ d0.k
        exact hk4

/-- C4: SKIPOVER coverage.  In every reachable valid state the current
k-mer — the carried characters `c_outs` followed by the window
`seq[start..end)` — consists only of ACTG bytes; `get_pos()` equals the
natural number `offset + start - |c_outs|` (no `size_t` underflow); and
every position of the reported k-mer that lies inside the virtual
concatenation `V` of all appended sequences carries an ACTG byte, so no
reported k-mer overlaps a non-ACTG byte.  Since every `base_*_hash`
argument in the code is such a k-mer and every `next_*_hash` in or out
character is drawn from it or guarded by `is_ACTG`, no non-ACTG byte reaches the
hash functions. -/
theorem skipover_valid_kmer_coverage (H : NtHash) (V : List Nat) (d : Cursor)
    (h : Reach H .skipover V d) (hv : d.is_valid_hash = true)
    (hV : V.length < U64) :
    allACTG (d.c_outs ++ windowOf d.seq d.start d.endi) = true ∧
    getPos d = d.offset + d.start - d.c_outs.length ∧
    (∀ i, d.offset + d.start - d.c_outs.length ≤ i →
      i < d.offset + d.start - d.c_outs.length + d.k → i < V.length →
      is_ACTG (V.getD i 0) = true) := by
  rcases reach_inv_skip H V d h with
    ⟨hseq, hoff, hk, hclen, hcarry, hvalid, hinvalid⟩
  rcases hvalid hv with ⟨hw, hsh⟩
  have hlen : d.seq.length = V.length - d.offset := by
    rw [hseq]
    simp
  have hB : d.offset + d.seq.length = V.length := by omega
  have hbound : d.c_outs.length ≤ d.offset + d.start ∧
      d.offset + d.start ≤ V.length := by
    by_cases hce : d.c_outs = []
    · have h0 : d.c_outs.length = 0 := by
        rw [hce]
        rfl
      rcases hsh with ⟨h1, h2⟩ | ⟨h1, h2, h3, h4⟩
      · exact ⟨by omega, by omega⟩
      · exact ⟨by omega, by omega⟩
    · rcases hcarry hce with ⟨b1, b2, _, _⟩
      exact ⟨b1, b2⟩
  have hse : d.start ≤ d.endi := by
    rcases hsh with ⟨h1, h2⟩ | ⟨h1, h2, h3, h4⟩ <;> omega
  have hca : allACTG d.c_outs = true := by
    by_cases hce : d.c_outs = []
    · rw [hce]
      rfl
    · exact (hcarry hce).2.2.2
  have hwinV : windowOf d.seq d.start d.endi =
      windowOf V (d.offset + d.start) (d.offset + d.endi) := by
    conv_lhs => rw [hseq]
    exact windowOf_of_drop
  have hkmer : d.c_outs ++ windowOf d.seq d.start d.endi =
      windowOf V (d.offset + d.start - d.c_outs.length) (d.offset + d.endi) := by
    by_cases hce : d.c_outs = []
    · rw [hce, hwinV]
      rw [show d.offset + d.start - List.length ([] : List Nat) =
          d.offset + d.start from by simp]
      rfl
    · rcases hcarry hce with ⟨b1, b2, bcoh, _⟩
      conv_lhs => rw [bcoh, hwinV]
      exact windowOf_concat (by omega) (by omega)
  have hend2 : d.offset + d.endi =
        d.offset + d.start - d.c_outs.length + d.k ∨
      (d.offset + d.endi = V.length ∧
        V.length ≤ d.offset + d.start - d.c_outs.length + d.k) := by
    rcases hsh with ⟨h1, h2⟩ | ⟨h1, h2, h3, h4⟩
    · left
      omega
    · right
      exact ⟨by omega, by omega⟩
  have hwend : d.offset + d.endi ≤ V.length := by
    rcases hsh with ⟨h1, h2⟩ | ⟨h1, h2, h3, h4⟩ <;> omega
  refine ⟨?_, ?_, ?_⟩
  · rw [allACTG_append, hca, hw]
    rfl
  · have hsmall : d.c_outs.length % U64 = d.c_outs.length :=
      Nat.mod_eq_of_lt (by omega)
    rw [getPos, hsmall]
    rw [show d.offset + d.start + (U64 - d.c_outs.length) =
        d.offset + d.start - d.c_outs.length + U64 from by omega]
    rw [Nat.add_mod_right, Nat.mod_eq_of_lt (by omega)]
  · intro i hi1 hi2 hi3
    have hi4 : i < d.offset + d.endi := by
      rcases hend2 with hcase | ⟨hcase1, hcase2⟩ <;> omega
    have hall : allACTG (windowOf V (d.offset + d.start - d.c_outs.length)
        (d.offset + d.endi)) = true := by
      rw [← hkmer, allACTG_append, hca, hw]
      rfl
    exact (allACTG_iff_getD hwend).mp hall i hi1 hi4

theorem skipover_valid_kmer_coverage_witness :
    allACTG ((cursorOf (construct H0 .skipover [65, 67, 84, 71] 4 0 0)).c_outs ++
      windowOf (cursorOf (construct H0 .skipover [65, 67, 84, 71] 4 0 0)).seq
        (cursorOf (construct H0 .skipover [65, 67, 84, 71] 4 0 0)).start
        (cursorOf (construct H0 .skipover [65, 67, 84, 71] 4 0 0)).endi) = true ∧
    getPos (cursorOf (construct H0 .skipover [65, 67, 84, 71] 4 0 0)) = 0 := by
  have hreach : Reach H0 .skipover [65, 67, 84, 71]
      (cursorOf (construct H0 .skipover [65, 67, 84, 71] 4 0 0)) :=
    Reach.construct [65, 67, 84, 71] 4 0 0 _ rfl
  have hres := skipover_valid_kmer_coverage H0 [65, 67, 84, 71] _ hreach
    (by decide) (by decide)
  refine ⟨hres.1, ?_⟩
  rw [hres.2.1]
  decide

end Digest
